import Mathlib

/-!
Shallow embedding of the deep-clone engine in `util/scopier/scopier.go`
(package `scopier` of go-fox/sugar).

The Go code walks arbitrary values with `reflect`; we embed the fragment it
actually inspects: runtime types (`Ty`), runtime values (`V`), a heap of
allocations (`Cell`, backing arrays of slices, map storage, and `reflect.New`
allocations), and the cloner state `St` carrying the per-call visited table
`ptrs : map[reflect.Type]map[uintptr]reflect.Value`.

A Go panic is modelled as `Option.none`; normal completion as `some`.
Recursion is fuel-indexed (`cloneF fuel`), with fuel exhaustion also `none`;
theorems about panics therefore demonstrate separately that the recursion
itself completes at the given fuel.
-/

namespace Scopier

/-- Scalar kinds of the Go reflect universe handled by `cloner.clone`. -/
inductive Sc where
  | sbool
  | sint | sint8 | sint16 | sint32 | sint64
  | suint | suint8 | suint16 | suint32 | suint64
  | sfloat32 | sfloat64 | scomplex64 | scomplex128
  | sstring
deriving DecidableEq, Repr

/-- Go types, as far as the clone engine distinguishes them.
`named` is a defined type with an underlying type (Go `type MyInt int`);
`tstruct` refers to a struct type by name, its fields live in a `GEnv`;
`iface` is the empty interface and `niface` a named non-empty interface
type (e.g. `error`), whose implements-relation lives in the `GEnv`. -/
inductive Ty where
  | prim (s : Sc)
  | named (n : String) (u : Ty)
  | slice (t : Ty)
  | array (n : Nat) (t : Ty)
  | tmap (k v : Ty)
  | ptr (t : Ty)
  | tstruct (name : String)
  | func (sig : Nat)
  | iface
  | niface (iname : String)
  | chan (t : Ty)
deriving DecidableEq, Repr

/-- Strip the `named` wrappers: Go's underlying type, which fixes the
`reflect.Kind`. -/
def underlying : Ty → Ty
  | .named _ u => underlying u
  | t => t

/-- A machine address: allocation id plus a path inside the allocation
(struct field indices / array indices), mirroring `reflect.Value.UnsafeAddr`
at the granularity the cloner compares addresses. -/
abbrev Addr := Nat × List Nat

/-- Slice header: backing allocation id, length, capacity. -/
abbrev SliceRef := Nat × Nat × Nat

/-- A Go runtime value with its dynamic `reflect` contents.  `invalid` is the
zero `reflect.Value`.  Nillable references hold `none` when nil. -/
inductive V where
  | invalid
  | vbool (ty : Ty) (b : Bool)
  | vint (ty : Ty) (n : Int)
  | vuint (ty : Ty) (n : Nat)
  | vfloat (ty : Ty) (bits : Nat)
  | vcomplex (ty : Ty) (bits : Nat)
  | vstr (ty : Ty) (s : String)
  | vslice (ty : Ty) (r : Option SliceRef)
  | vmap (ty : Ty) (r : Option Nat)
  | vptr (ty : Ty) (r : Option Addr)
  | vstruct (ty : Ty) (fields : List V)
  | varray (ty : Ty) (elems : List V)
  | vfunc (ty : Ty) (fid : Option Nat)
  | viface (inner : V)
  | vchan (ty : Ty) (r : Option Nat)

/-- One field of a Go struct type: name, type, and whether it is exported
(`reflect.Value.CanSet` on an addressable struct). -/
structure Field where
  fname : String
  fty : Ty
  exported : Bool

/-- The type environment: struct type name to field list, and the
implements-relation consulted by `reflect.Value.Convert` / assignability
for named non-empty interface types (does the given type implement the
named interface). -/
structure GEnv where
  fields : String → List Field
  impls : String → Ty → Bool

/-- A heap allocation: a slice backing array, map storage, or a
`reflect.New` cell. -/
inductive Cell where
  | carr (ety : Ty) (elems : List V)
  | cmap (kt vt : Ty) (entries : List (V × V))
  | cval (ty : Ty) (v : V)

/-- Cloner state: the shared heap, the per-call visited table
(`cloner.ptrs`, keyed by pointer type and address), and the next fresh
allocation id. -/
structure St where
  heap : List (Nat × Cell)
  ptrs : List ((Ty × Addr) × V)
  next : Nat

/-- `reflect.Value.Type`, panicking (`none`) on the zero value. -/
def vTy : V → Option Ty
  | .invalid => none
  | .vbool ty _ => some ty
  | .vint ty _ => some ty
  | .vuint ty _ => some ty
  | .vfloat ty _ => some ty
  | .vcomplex ty _ => some ty
  | .vstr ty _ => some ty
  | .vslice ty _ => some ty
  | .vmap ty _ => some ty
  | .vptr ty _ => some ty
  | .vstruct ty _ => some ty
  | .varray ty _ => some ty
  | .vfunc ty _ => some ty
  | .viface _ => some .iface
  | .vchan ty _ => some ty

/-- `reflect.Value.IsValid`. -/
def isValidV : V → Bool
  | .invalid => false
  | _ => true

/-- `isNillable` from scopier.go: kinds Chan, Interface, Ptr, Func. -/
def isNillableV : V → Bool
  | .vchan _ _ => true
  | .viface _ => true
  | .vptr _ _ => true
  | .vfunc _ _ => true
  | _ => false

/-- `reflect.Value.IsNil` restricted to the kinds `isNillable` admits. -/
def isNilV : V → Bool
  | .vchan _ none => true
  | .vptr _ none => true
  | .vfunc _ none => true
  | .viface .invalid => true
  | _ => false

/-- Width of a signed integer kind. -/
def intWidth : Sc → Option Nat
  | .sint => some 64
  | .sint8 => some 8
  | .sint16 => some 16
  | .sint32 => some 32
  | .sint64 => some 64
  | _ => none

/-- Width of an unsigned integer kind. -/
def uintWidth : Sc → Option Nat
  | .suint => some 64
  | .suint8 => some 8
  | .suint16 => some 16
  | .suint32 => some 32
  | .suint64 => some 64
  | _ => none

/-- Two's-complement wrap of an integer to a signed width, the effect of the
Go conversions `int8(..)`, `int16(..)`, ... -/
def wrapS (w : Nat) (n : Int) : Int :=
  (n + 2 ^ (w - 1)) % 2 ^ w - 2 ^ (w - 1)

/-- Wrap of a natural to an unsigned width (`uint8(..)`, ...). -/
def wrapU (w : Nat) (n : Nat) : Nat := n % 2 ^ w

/-- Reinterpret a signed integer as unsigned at a given width. -/
def toUnsigned (w : Nat) (n : Int) : Nat :=
  ((n % (2 ^ w : Int) + 2 ^ w) % 2 ^ w).toNat

/-- Replace only the static type of a value, keeping its contents: the
data movement `reflect.Value.Convert` performs between types of identical
underlying structure. -/
def retype (v : V) (t : Ty) : V :=
  match v with
  | .invalid => .invalid
  | .vbool _ b => .vbool t b
  | .vint _ n => .vint t n
  | .vuint _ n => .vuint t n
  | .vfloat _ n => .vfloat t n
  | .vcomplex _ n => .vcomplex t n
  | .vstr _ s => .vstr t s
  | .vslice _ r => .vslice t r
  | .vmap _ r => .vmap t r
  | .vptr _ r => .vptr t r
  | .vstruct _ fs => .vstruct t fs
  | .varray _ es => .varray t es
  | .vfunc _ f => .vfunc t f
  | .viface i => .viface i
  | .vchan _ r => .vchan t r

/-- `reflect.Value.Convert` for the conversions the clone engine can
exercise: identity up to renaming of the underlying type, integer width and
signedness conversions, pointer conversions between pointer types whose
base types share an underlying type, wrapping any value into the empty
interface, and conversion to a named non-empty interface — which succeeds
only when the value's type implements it and otherwise panics (the
inconvertible-slot panic of `cloneSlice`/`cloneMap`/`cloneStruct`).
Impossible conversions (and conversion of the zero `reflect.Value`)
panic: `none`. -/
def convertV (env : GEnv) (v : V) (t : Ty) : Option V :=
  match vTy v with
  | none => none
  | some vt =>
    if underlying t = Ty.iface then
      if underlying vt = Ty.iface then some v else some (.viface v)
    else
      match underlying t with
      | .niface iname =>
        if env.impls iname vt then some (.viface v) else none
      | _ =>
        if underlying vt = underlying t then
          some (retype v t)
        else
          match v, underlying vt, underlying t with
          | .vptr _ r, .ptr b1, .ptr b2 =>
            if underlying b1 = underlying b2 then some (.vptr t r) else none
          | .vint _ n, _, .prim s =>
            match intWidth s with
            | some w => some (.vint t (wrapS w n))
            | none =>
              match uintWidth s with
              | some w => some (.vuint t (wrapU w (toUnsigned w n)))
              | none => none
          | .vuint _ n, _, .prim s =>
            match uintWidth s with
            | some w => some (.vuint t (wrapU w n))
            | none =>
              match intWidth s with
              | some w => some (.vint t (wrapS w (Int.ofNat n)))
              | none => none
          | _, _, _ => none

/-- Assignability check done by `reflect.Value.Set` / `SetMapIndex`:
identical declared type, or boxing into the empty interface, or boxing
into a named interface the value's type implements. -/
def assignTo (env : GEnv) (t : Ty) (v : V) : Option V :=
  match vTy v with
  | none => none
  | some vt =>
    if vt = t then some v
    else if underlying t = Ty.iface then some (.viface v)
    else
      match underlying t with
      | .niface iname => if env.impls iname vt then some (.viface v) else none
      | _ => none

/-- The zero value of a Go type (`reflect.Zero` / fresh `reflect.New`
contents), fuel-indexed to cross struct and array boundaries. -/
def zeroV (env : GEnv) : Nat → Ty → V
  | 0, _ => .invalid
  | zf + 1, ty =>
    match underlying ty with
    | .prim .sbool => .vbool ty false
    | .prim .sint => .vint ty 0
    | .prim .sint8 => .vint ty 0
    | .prim .sint16 => .vint ty 0
    | .prim .sint32 => .vint ty 0
    | .prim .sint64 => .vint ty 0
    | .prim .suint => .vuint ty 0
    | .prim .suint8 => .vuint ty 0
    | .prim .suint16 => .vuint ty 0
    | .prim .suint32 => .vuint ty 0
    | .prim .suint64 => .vuint ty 0
    | .prim .sfloat32 => .vfloat ty 0
    | .prim .sfloat64 => .vfloat ty 0
    | .prim .scomplex64 => .vcomplex ty 0
    | .prim .scomplex128 => .vcomplex ty 0
    | .prim .sstring => .vstr ty ""
    | .slice _ => .vslice ty none
    | .array n t => .varray ty (List.replicate n (zeroV env zf t))
    | .tmap _ _ => .vmap ty none
    | .ptr _ => .vptr ty none
    | .tstruct nm => .vstruct ty ((env.fields nm).map fun f => zeroV env zf f.fty)
    | .func _ => .vfunc ty none
    | .iface => .viface .invalid
    | .niface _ => .viface .invalid
    | .chan _ => .vchan ty none
    | .named _ _ => .invalid

/-- Fueled structural equality of values, used for Go map key identity when
inserting with `SetMapIndex`. -/
def beqVF : Nat → V → V → Bool
  | 0, _, _ => false
  | bf + 1, a, b =>
    match a, b with
    | .invalid, .invalid => true
    | .vbool t x, .vbool t' y => decide (t = t' ∧ x = y)
    | .vint t n, .vint t' m => decide (t = t' ∧ n = m)
    | .vuint t n, .vuint t' m => decide (t = t' ∧ n = m)
    | .vfloat t n, .vfloat t' m => decide (t = t' ∧ n = m)
    | .vcomplex t n, .vcomplex t' m => decide (t = t' ∧ n = m)
    | .vstr t s, .vstr t' s' => decide (t = t' ∧ s = s')
    | .vslice t r, .vslice t' r' => decide (t = t' ∧ r = r')
    | .vmap t r, .vmap t' r' => decide (t = t' ∧ r = r')
    | .vptr t r, .vptr t' r' => decide (t = t' ∧ r = r')
    | .vchan t r, .vchan t' r' => decide (t = t' ∧ r = r')
    | .vfunc t f, .vfunc t' f' => decide (t = t' ∧ f = f')
    | .vstruct t fs, .vstruct t' gs =>
      decide (t = t') && decide (fs.length = gs.length)
        && (fs.zip gs).all fun p => beqVF bf p.1 p.2
    | .varray t es, .varray t' gs =>
      decide (t = t') && decide (es.length = gs.length)
        && (es.zip gs).all fun p => beqVF bf p.1 p.2
    | .viface x, .viface y => beqVF bf x y
    | _, _ => false

/-- Heap lookup by allocation id. -/
def hlookup : List (Nat × Cell) → Nat → Option Cell
  | [], _ => none
  | (k, c) :: t, n => if k = n then some c else hlookup t n

/-- Replace the (first) binding of an allocation id. -/
def hupdate : List (Nat × Cell) → Nat → Cell → List (Nat × Cell)
  | [], _, _ => []
  | (k, c) :: t, n, c' => if k = n then (k, c') :: t else (k, c) :: hupdate t n c'

/-- Navigate inside an inline value along a path of field/element indices. -/
def readV : V → List Nat → Option V
  | v, [] => some v
  | v, i :: p =>
    match v with
    | .vstruct _ fs => (fs.get? i).bind fun x => readV x p
    | .varray _ es => (es.get? i).bind fun x => readV x p
    | _ => none

/-- Write inside an inline value along a path. -/
def writeV : V → List Nat → V → Option V
  | _, [], u => some u
  | v, i :: p, u =>
    match v with
    | .vstruct ty fs =>
      (fs.get? i).bind fun x => (writeV x p u).map fun x' => .vstruct ty (fs.set i x')
    | .varray ty es =>
      (es.get? i).bind fun x => (writeV x p u).map fun x' => .varray ty (es.set i x')
    | _ => none

/-- Read a value at a path of a heap allocation. -/
def readCell : Cell → List Nat → Option V
  | .carr _ es, i :: p => (es.get? i).bind fun x => readV x p
  | .carr _ _, [] => none
  | .cval _ v, p => readV v p
  | .cmap _ _ _, _ => none

/-- Write a value at a path of a heap allocation. -/
def writeCell : Cell → List Nat → V → Option Cell
  | .carr ety es, i :: p, u =>
    (es.get? i).bind fun x => (writeV x p u).map fun x' => .carr ety (es.set i x')
  | .carr _ _, [], _ => none
  | .cval ty v, p, u => (writeV v p u).map fun v' => .cval ty v'
  | .cmap _ _ _, _, _ => none

/-- Dereference an address in the current state. -/
def readAddr (st : St) (a : Addr) : Option V :=
  (hlookup st.heap a.1).bind fun cell => readCell cell a.2

/-- Mutate the storage at an address. -/
def writeAddr (st : St) (a : Addr) (u : V) : Option St :=
  (hlookup st.heap a.1).bind fun cell =>
    (writeCell cell a.2 u).map fun cell' => { st with heap := hupdate st.heap a.1 cell' }

/-- Insert or overwrite one map entry (`SetMapIndex` on existing storage). -/
def setEntry (bf : Nat) : List (V × V) → V → V → List (V × V)
  | [], k, u => [(k, u)]
  | (k0, v0) :: rest, k, u =>
    if beqVF bf k0 k then (k0, u) :: rest else (k0, v0) :: setEntry bf rest k u

/-- Mutate one entry of a map allocation (used to state independence of the
clone under map-entry mutation). -/
def mapSetEntry (bf : Nat) (st : St) (c : Nat) (k u : V) : Option St :=
  match hlookup st.heap c with
  | some (.cmap kt vt entries) =>
    some { st with heap := hupdate st.heap c (.cmap kt vt (setEntry bf entries k u)) }
  | _ => none

/-- Allocate a fresh heap cell at `st.next`. -/
def alloc (st : St) (cell : Cell) : St :=
  { heap := (st.next, cell) :: st.heap, ptrs := st.ptrs, next := st.next + 1 }

/-- Lookup in the visited table `cloner.ptrs` (pointer type × address). -/
def tblLookup : List ((Ty × Addr) × V) → Ty × Addr → Option V
  | [], _ => none
  | (k, v) :: t, key => if k = key then some v else tblLookup t key

/-- Insert (overwrite) in the visited table. -/
def tblInsert (tbl : List ((Ty × Addr) × V)) (key : Ty × Addr) (v : V) :
    List ((Ty × Addr) × V) :=
  (key, v) :: tbl

/-- The element loop of `cloner.cloneSlice`: for each index, clone
`v.Index(i)` (addressable, at `(src, [i])`), skip the slot if the clone is
invalid, otherwise `arr.Index(i).Set(val.Convert(item.Type()))`. -/
def sliceLoop (env : GEnv) (rec : St → V → Option Addr → Option (St × V))
    (src dst : Nat) (ety : Ty) : St → List Nat → Option St
  | st, [] => some st
  | st, i :: rest =>
    (readAddr st (src, [i])).bind fun ev =>
    (rec st ev (some (src, [i]))).bind fun p =>
    if isValidV p.2 then
      (convertV env p.2 ety).bind fun cv =>
      (writeAddr p.1 (dst, [i]) cv).bind fun st'' =>
      sliceLoop env rec src dst ety st'' rest
    else sliceLoop env rec src dst ety p.1 rest

/-- `cloner.cloneSlice`.  `v.IsNil()` panics on non-nillable kinds (in
particular on every Scalar, Struct and fixed-length Array input);
`reflect.MakeSlice(v.Type(), v.Len(), v.Len())` panics on non-slice types.
A nil nillable input yields `reflect.Zero(v.Type())`. -/
def sliceBody (env : GEnv) (zf : Nat) (rec : St → V → Option Addr → Option (St × V))
    (st : St) (v : V) : Option (St × V) :=
  match v with
  | .vslice ty none => some (st, .vslice ty none)
  | .vslice ty (some (c, len, _)) =>
    match underlying ty with
    | .slice ety =>
      (sliceLoop env rec c st.next ety
          (alloc st (.carr ety (List.replicate len (zeroV env zf ety))))
          (List.range len)).bind fun st2 =>
        some (st2, .vslice ty (some (st.next, len, len)))
    | _ => none
  | .vmap ty none => some (st, .vmap ty none)
  | .vptr ty none => some (st, .vptr ty none)
  | .vchan ty none => some (st, .vchan ty none)
  | .vfunc ty none => some (st, .vfunc ty none)
  | .viface .invalid => some (st, .viface .invalid)
  | _ => none

/-- The entry loop of `cloner.cloneMap`: clone key then value, re-coerce
per the nillability checks, substitute the destination zero value for an
invalid cloned value, and `SetMapIndex`. -/
def mapLoop (env : GEnv) (zf : Nat) (rec : St → V → Option Addr → Option (St × V))
    (kt vt : Ty) (dst : Nat) : St → List (V × V) → Option St
  | st, [] => some st
  | st, e :: rest =>
    (rec st e.1 none).bind fun pk =>
    (rec pk.1 e.2 none).bind fun pv =>
    (if !isNillableV pk.2 || !isNilV pk.2 then convertV env pk.2 kt else some pk.2).bind fun ck' =>
    (if (!isNillableV pv.2 || !isNilV pv.2) && isValidV pv.2 then
        convertV env pv.2 vt
      else some pv.2).bind fun cv' =>
    (assignTo env kt ck').bind fun ck'' =>
    (assignTo env vt (if isValidV cv' then cv' else zeroV env zf vt)).bind fun cv''' =>
    (mapSetEntry zf pv.1 dst ck'' cv''').bind fun st3 =>
    mapLoop env zf rec kt vt dst st3 rest

/-- `cloner.cloneMap`.  `v.IsNil()` panics on non-nillable kinds;
`reflect.MakeMap(v.Type())` panics on non-map types; a nil nillable input
yields `reflect.Zero(v.Type())`. -/
def mapBody (env : GEnv) (zf : Nat) (rec : St → V → Option Addr → Option (St × V))
    (st : St) (v : V) : Option (St × V) :=
  match v with
  | .vmap ty none => some (st, .vmap ty none)
  | .vmap ty (some mc) =>
    match underlying ty with
    | .tmap kt vt =>
      match hlookup st.heap mc with
      | some (.cmap _ _ entries) =>
        (mapLoop env zf rec kt vt st.next (alloc st (.cmap kt vt [])) entries).bind
          fun st2 => some (st2, .vmap ty (some st.next))
      | _ => none
    | _ => none
  | .vslice ty none => some (st, .vslice ty none)
  | .vptr ty none => some (st, .vptr ty none)
  | .vchan ty none => some (st, .vchan ty none)
  | .vfunc ty none => some (st, .vfunc ty none)
  | .viface .invalid => some (st, .viface .invalid)
  | _ => none

/-- `cloner.clonePtr`: nil gives a typed nil; otherwise consult the visited
table under `(v.Type(), v.Elem().UnsafeAddr())` before and after cloning the
referent (the table is only ever populated by `cloner.cloneStruct`), and on
a double miss allocate `reflect.New(newVal.Type())` — the new pointer's type
is rebuilt from the cloned referent's type, not taken from the source. -/
def ptrBody (rec : St → V → Option Addr → Option (St × V))
    (st : St) (v : V) : Option (St × V) :=
  match v with
  | .vptr ty none => some (st, .vptr ty none)
  | .vptr ty (some a) =>
    match tblLookup st.ptrs (ty, a) with
    | some w => some (st, w)
    | none =>
      (readAddr st a).bind fun ev =>
      (rec st ev (some a)).bind fun p =>
      match tblLookup p.1.ptrs (ty, a) with
      | some w => some (p.1, w)
      | none =>
        (vTy p.2).bind fun nty =>
        some (alloc p.1 (.cval nty p.2), .vptr (.ptr nty) (some (p.1.next, [])))
  | _ => none

/-- The field loop of `cloner.cloneStruct`: skip unexported fields
(`CanSet` is false), clone `v.Field(i)` at the field's address, skip
invalid clones, convert to the declared field type and set it in the
freshly allocated struct cell. -/
def structLoop (env : GEnv) (rec : St → V → Option Addr → Option (St × V))
    (c : Nat) (addr : Option Addr) : St → List (Nat × Field × V) → Option St
  | st, [] => some st
  | st, trip :: rest =>
    if trip.2.1.exported then
      (rec st trip.2.2 (addr.map fun a => (a.1, a.2 ++ [trip.1]))).bind fun p =>
      if isValidV p.2 then
        (convertV env p.2 trip.2.1.fty).bind fun cv' =>
        (writeAddr p.1 (c, [trip.1]) cv').bind fun st'' =>
        structLoop env rec c addr st'' rest
      else structLoop env rec c addr p.1 rest
    else structLoop env rec c addr st rest

/-- Pair each struct field value with its index and declaration. -/
def fieldTriples (flds : List Field) (fvs : List V) : List (Nat × Field × V) :=
  (flds.zip fvs).enum

/-- The visited-table registration step of `cloner.cloneStruct`: when the
source struct is addressable, record the freshly allocated pointer under
`(clonedStructPtr.Type(), v.UnsafeAddr())`. -/
def registerStruct (st : St) (addr : Option Addr) (pty : Ty) (c : Nat) : St :=
  match addr with
  | some a => { st with ptrs := tblInsert st.ptrs (pty, a) (.vptr pty (some (c, []))) }
  | none => st

/-- `cloner.cloneStruct`: allocate `reflect.New(v.Type())`; if the source
struct is addressable, record the new pointer in the visited table under
`(clonedStructPtr.Type(), v.UnsafeAddr())` before cloning any field; then
clone the settable fields.  Non-struct input panics at `v.NumField()`
(or at `v.Type()` for the zero Value). -/
def structBody (env : GEnv) (zf : Nat) (rec : St → V → Option Addr → Option (St × V))
    (st : St) (v : V) (addr : Option Addr) : Option (St × V) :=
  match v with
  | .vstruct ty fvs =>
    match underlying ty with
    | .tstruct nm =>
      (structLoop env rec st.next addr
          (registerStruct (alloc st (.cval ty (zeroV env zf ty))) addr (Ty.ptr ty) st.next)
          (fieldTriples (env.fields nm) fvs)).bind fun st3 =>
      (readAddr st3 (st.next, [])).bind fun w =>
      some (st3, w)
    | _ => none
  | _ => none

/-- One dispatch step of `cloner.clone`, the kind switch.  Scalars are
rebuilt through `reflect.ValueOf(v.Bool())`, `reflect.ValueOf(int8(v.Int()))`,
... — note the result's type is the unnamed primitive type.  Arrays are sent
to `cloneSlice` like slices.  Funcs are returned unchanged.  Interfaces are
unwrapped.  Channels fall through to `reflect.Zero(v.Type())`. -/
def cloneStep (env : GEnv) (zf : Nat)
    (rec : St → V → Option Addr → Option (St × V))
    (st : St) (v : V) (addr : Option Addr) : Option (St × V) :=
  match v with
  | .invalid => some (st, .invalid)
  | .vbool _ b => some (st, .vbool (.prim .sbool) b)
  | .vint ty n =>
    match underlying ty with
    | .prim s =>
      match intWidth s with
      | some w => some (st, .vint (.prim s) (wrapS w n))
      | none => none
    | _ => none
  | .vuint ty n =>
    match underlying ty with
    | .prim s =>
      match uintWidth s with
      | some w => some (st, .vuint (.prim s) (wrapU w n))
      | none => none
    | _ => none
  | .vfloat ty bits =>
    match underlying ty with
    | .prim .sfloat32 => some (st, .vfloat (.prim .sfloat32) bits)
    | .prim .sfloat64 => some (st, .vfloat (.prim .sfloat64) bits)
    | _ => none
  | .vcomplex ty bits =>
    match underlying ty with
    | .prim .scomplex64 => some (st, .vcomplex (.prim .scomplex64) bits)
    | .prim .scomplex128 => some (st, .vcomplex (.prim .scomplex128) bits)
    | _ => none
  | .vstr _ s => some (st, .vstr (.prim .sstring) s)
  | .vslice ty r => sliceBody env zf rec st (.vslice ty r)
  | .varray ty es => sliceBody env zf rec st (.varray ty es)
  | .vmap ty r => mapBody env zf rec st (.vmap ty r)
  | .vptr ty r => ptrBody rec st (.vptr ty r)
  | .vstruct ty fs => structBody env zf rec st (.vstruct ty fs) addr
  | .vfunc ty f => some (st, .vfunc ty f)
  | .viface i => rec st i none
  | .vchan ty _ => some (st, .vchan ty none)

/-- Fuel-indexed `cloner.clone`. -/
def cloneF (env : GEnv) : Nat → St → V → Option Addr → Option (St × V)
  | 0 => fun _ _ _ => none
  | fuel + 1 => cloneStep env fuel (cloneF env fuel)

/-- `result.Interface().(T)`: the generic type assertion performed by every
entry point; panics unless the result's dynamic type is `T` (or `T` is the
empty interface). -/
def assertT (T : Ty) (r : V) : Option V :=
  if underlying T = Ty.iface then some r
  else
    match vTy r with
    | none => none
    | some t => if t = T then some r else none

/-- Finish an entry point: degrade an `Invalid` result
(`result.Kind() == reflect.Invalid`) to the zero value of `T`, otherwise
perform the `result.Interface().(T)` assertion. -/
def finish (env : GEnv) (fuel : Nat) (T : Ty) : Option (St × V) → Option (St × V)
  | none => none
  | some p =>
    if isValidV p.2 then (assertT T p.2).map fun w => (p.1, w)
    else some (p.1, zeroV env fuel T)

/-- `DeepClone[T]`: fresh cloner (empty visited table), generic dispatch. -/
def goDeepClone (env : GEnv) (fuel : Nat) (T : Ty) (st : St) (src : V) :
    Option (St × V) :=
  finish env fuel T (cloneF env fuel { st with ptrs := [] } src none)

/-- `CloneStruct[T]`: fresh cloner, straight to `cloner.cloneStruct`. -/
def goCloneStruct (env : GEnv) (fuel : Nat) (T : Ty) (st : St) (src : V) :
    Option (St × V) :=
  finish env fuel T (structBody env fuel (cloneF env fuel) { st with ptrs := [] } src none)

/-- `CloneSlice[T]`: fresh cloner, straight to `cloner.cloneSlice`. -/
def goCloneSlice (env : GEnv) (fuel : Nat) (T : Ty) (st : St) (src : V) :
    Option (St × V) :=
  finish env fuel T (sliceBody env fuel (cloneF env fuel) { st with ptrs := [] } src)

/-- `CloneMap[T]`: fresh cloner, straight to `cloner.cloneMap`. -/
def goCloneMap (env : GEnv) (fuel : Nat) (T : Ty) (st : St) (src : V) :
    Option (St × V) :=
  finish env fuel T (mapBody env fuel (cloneF env fuel) { st with ptrs := [] } src)

/-! ### Storage footprints

`cellsV v` is the set of heap allocations a value refers to directly;
`cellsC` the allocations a heap cell's contents refer to.  The engine's
independence property is phrased with these: every allocation the clone
refers to (transitively, via closure of the fresh region) is fresh. -/

mutual

/-- Allocation ids directly referenced by a value. -/
def cellsV : V → List Nat
  | .invalid => []
  | .vbool _ _ => []
  | .vint _ _ => []
  | .vuint _ _ => []
  | .vfloat _ _ => []
  | .vcomplex _ _ => []
  | .vstr _ _ => []
  | .vslice _ none => []
  | .vslice _ (some (c, _, _)) => [c]
  | .vmap _ none => []
  | .vmap _ (some c) => [c]
  | .vptr _ none => []
  | .vptr _ (some (c, _)) => [c]
  | .vstruct _ fs => cellsVL fs
  | .varray _ es => cellsVL es
  | .vfunc _ _ => []
  | .viface i => cellsV i
  | .vchan _ none => []
  | .vchan _ (some c) => [c]

/-- Allocation ids referenced by a list of values. -/
def cellsVL : List V → List Nat
  | [] => []
  | x :: xs => cellsV x ++ cellsVL xs

end

/-- Allocation ids referenced by a list of map entries. -/
def cellsE : List (V × V) → List Nat
  | [] => []
  | e :: rest => cellsV e.1 ++ cellsV e.2 ++ cellsE rest

/-- Allocation ids referenced from the contents of a heap cell. -/
def cellsC : Cell → List Nat
  | .carr _ es => cellsVL es
  | .cmap _ _ es => cellsE es
  | .cval _ v => cellsV v

/-- Invariant of a cloner state relative to a baseline `B` (the value of
`next` when the top-level call started): allocations below `next` only, the
visited table only holds references into the fresh region `[B, next)`, and
fresh cells only reference the fresh region. -/
def Fresh (B : Nat) (st : St) : Prop :=
  B ≤ st.next ∧
  (∀ c cell, hlookup st.heap c = some cell → c < st.next) ∧
  (∀ k w, tblLookup st.ptrs k = some w → ∀ c ∈ cellsV w, B ≤ c ∧ c < st.next) ∧
  (∀ c cell, hlookup st.heap c = some cell → B ≤ c →
    ∀ c' ∈ cellsC cell, B ≤ c' ∧ c' < st.next)

/-- What one recursive clone call guarantees: `next` grows, existing
allocations are untouched, the invariant is maintained, and the produced
value references only the fresh region. -/
def Mono (B : Nat) (st st' : St) (w : V) : Prop :=
  st.next ≤ st'.next ∧
  (∀ c, c < st.next → hlookup st'.heap c = hlookup st.heap c) ∧
  Fresh B st' ∧
  (∀ c ∈ cellsV w, B ≤ c ∧ c < st'.next)

/-- The induction hypothesis shape for the fuel recursion: every
successful recursive clone call satisfies `Mono`. -/
def RecOK (B : Nat) (rec : St → V → Option Addr → Option (St × V)) : Prop :=
  ∀ st v a st' w, Fresh B st → rec st v a = some (st', w) → Mono B st st' w

/-! ### Concrete scenarios used by the claims

Go shapes appearing in the spec's concrete test scenarios: an empty type
environment with an empty heap, a self-referential `Record` (`{Name string;
Next *Record}`), a mutually-referential pair of structs, structs holding two
aliased pointers, small maps and slices. -/

/-- The Go `int` type. -/
def tint : Ty := .prim .sint

/-- The Go `string` type. -/
def tstr : Ty := .prim .sstring

/-- The Go `int32` type. -/
def t32 : Ty := .prim .sint32

/-- The Go `int64` type. -/
def t64 : Ty := .prim .sint64

/-- An environment with no struct types and an empty implements-relation. -/
def env0 : GEnv := ⟨fun _ => [], fun _ _ => false⟩

/-- An empty heap state. -/
def st0 : St := ⟨[], [], 0⟩

/-- `type Record struct { Name string; Next *Record }`. -/
def recT : Ty := .tstruct "Record"

/-- Field table for `Record`. -/
def recFields : List Field := [⟨"Name", tstr, true⟩, ⟨"Next", .ptr recT, true⟩]

/-- Environment declaring `Record`. -/
def envR : GEnv := ⟨fun n => if n = "Record" then recFields else [], fun _ _ => false⟩

/-- A heap holding one `Record` whose `Next` points back to itself. -/
def stRec : St :=
  ⟨[(0, .cval recT (.vstruct recT [.vstr tstr "a", .vptr (.ptr recT) (some (0, []))]))],
   [], 1⟩

/-- `type A struct { P *B }`. -/
def aT : Ty := .tstruct "A"

/-- `type B struct { Q *A }`. -/
def bT : Ty := .tstruct "B"

/-- Environment declaring the mutually referential pair `A`, `B`. -/
def envAB : GEnv :=
  ⟨fun n =>
    if n = "A" then [⟨"P", .ptr bT, true⟩]
    else if n = "B" then [⟨"Q", .ptr aT, true⟩]
    else [], fun _ _ => false⟩

/-- A heap with an `A` at cell 0 and a `B` at cell 1 pointing at each other. -/
def stAB : St :=
  ⟨[(0, .cval aT (.vstruct aT [.vptr (.ptr bT) (some (1, []))])),
    (1, .cval bT (.vstruct bT [.vptr (.ptr aT) (some (0, []))]))], [], 2⟩

/-- `type PairI struct { A *int; B *int }`. -/
def pairIT : Ty := .tstruct "PairI"

/-- Environment declaring `PairI`. -/
def envPI : GEnv :=
  ⟨fun n => if n = "PairI" then [⟨"A", .ptr tint, true⟩, ⟨"B", .ptr tint, true⟩] else [],
   fun _ _ => false⟩

/-- A heap holding one `int` cell, shared by both fields of a `PairI`. -/
def stPI : St := ⟨[(0, .cval tint (.vint tint 7))], [], 1⟩

/-- A `PairI` value whose two pointer fields alias the same `int` cell. -/
def pairIVal : V :=
  .vstruct pairIT [.vptr (.ptr tint) (some (0, [])), .vptr (.ptr tint) (some (0, []))]

/-- `type PairR struct { A *Record; B *Record }`. -/
def pairRT : Ty := .tstruct "PairR"

/-- Environment declaring `PairR` and `Record`. -/
def envPR : GEnv :=
  ⟨fun n =>
    if n = "PairR" then [⟨"A", .ptr recT, true⟩, ⟨"B", .ptr recT, true⟩]
    else if n = "Record" then recFields
    else [], fun _ _ => false⟩

/-- A heap holding one `Record` (with nil `Next`), aliased twice. -/
def stPR : St :=
  ⟨[(0, .cval recT (.vstruct recT [.vstr tstr "x", .vptr (.ptr recT) none]))], [], 1⟩

/-- A `PairR` value whose two pointer fields alias the same `Record` cell. -/
def pairRVal : V :=
  .vstruct pairRT [.vptr (.ptr recT) (some (0, [])), .vptr (.ptr recT) (some (0, []))]

/-- `map[string]int32`. -/
def m32T : Ty := .tmap tstr t32

/-- `map[string]int64`. -/
def m64T : Ty := .tmap tstr t64

/-- A heap holding the map `{"a": 1, "b": 2}` with `int32` values. -/
def stM : St :=
  ⟨[(0, .cmap tstr t32 [(.vstr tstr "a", .vint t32 1), (.vstr tstr "b", .vint t32 2)])],
   [], 1⟩

/-- `[]interface{}` (`[]any`). -/
def anySlT : Ty := .slice .iface

/-- A heap holding the backing array of `[]any{1, nil, 3}`. -/
def stS : St :=
  ⟨[(0, .carr .iface [.viface (.vint tint 1), .viface .invalid, .viface (.vint tint 3)])],
   [], 1⟩

/-- `[]int`. -/
def intSlT : Ty := .slice tint

/-- A heap with a backing array of 5 ints, of which a slice uses only 3. -/
def stC : St :=
  ⟨[(0, .carr tint [.vint tint 1, .vint tint 2, .vint tint 3, .vint tint 4, .vint tint 5])],
   [], 1⟩

/-- The named scalar type `type MyInt int`. -/
def myIntT : Ty := .named "MyInt" tint

/-- The array type `[2]int`. -/
def arr2T : Ty := .array 2 tint

/-- The named non-empty interface type `error`. -/
def errT : Ty := .niface "error"

/-- `type myErr string`, a named string type that implements `error`. -/
def myErrT : Ty := .named "myErr" tstr

/-- `[]error`. -/
def errSlT : Ty := .slice errT

/-- Environment in which exactly `myErr` implements `error` (the plain
`string` type does not). -/
def envE : GEnv := ⟨fun _ => [], fun i ty => decide (i = "error" ∧ ty = myErrT)⟩

/-- A heap holding the backing array of `[]error{myErr("x"), myErr("y")}`. -/
def stE : St :=
  ⟨[(0, .carr errT [.viface (.vstr myErrT "x"), .viface (.vstr myErrT "y")])], [], 1⟩

/-- A pointer to the self-referential `Record` at cell 0. -/
def recPtrVal : V := .vptr (.ptr recT) (some (0, []))

/-- The state produced by deep-cloning `recPtrVal` from `stRec` (fuel 10):
the clone lives at fresh cell 1 and its `Next` points back to cell 1. -/
def c1Res : St :=
  ⟨[(1, .cval recT (.vstruct recT [.vstr tstr "a", .vptr (.ptr recT) (some (1, []))])),
    (0, .cval recT (.vstruct recT [.vstr tstr "a", .vptr (.ptr recT) (some (0, []))]))],
   [((Ty.ptr recT, (0, [])), .vptr (.ptr recT) (some (1, [])))], 2⟩

/-- The state produced by cloning the slice `[]any{1, nil, 3}` from `stS`. -/
def c7Res : St :=
  ⟨[(1, .carr .iface [.viface (.vint tint 1), .viface .invalid, .viface (.vint tint 3)]),
    (0, .carr .iface [.viface (.vint tint 1), .viface .invalid, .viface (.vint tint 3)])],
   [], 2⟩

/-- The state produced by cloning the length-3, capacity-5 slice from `stC`. -/
def c9Res : St :=
  ⟨[(1, .carr tint [.vint tint 1, .vint tint 2, .vint tint 3]),
    (0, .carr tint [.vint tint 1, .vint tint 2, .vint tint 3, .vint tint 4, .vint tint 5])],
   [], 2⟩

/-! ### Basic lemmas on the heap and footprints -/

theorem hlookup_hupdate_ne {h : List (Nat × Cell)} {n m : Nat} {c : Cell}
    (hne : m ≠ n) : hlookup (hupdate h n c) m = hlookup h m := by
  induction h with
  | nil => rfl
  | cons p t ih =>
    obtain ⟨k, c0⟩ := p
    by_cases hk : k = n
    · subst hk
      have hkm : ¬(k = m) := fun hh => hne hh.symm
      simp [hupdate, hlookup, hkm]
    · simp only [hupdate, if_neg hk]
      by_cases hm : k = m
      · simp [hlookup, hm]
      · simp [hlookup, hm, ih]

theorem hlookup_hupdate_self {h : List (Nat × Cell)} {n : Nat} {c : Cell} :
    hlookup (hupdate h n c) n = (hlookup h n).map fun _ => c := by
  induction h with
  | nil => rfl
  | cons p t ih =>
    obtain ⟨k, c0⟩ := p
    by_cases hk : k = n
    · subst hk; simp [hupdate, hlookup]
    · simp [hupdate, hlookup, hk, ih]

theorem cellsVL_append (xs ys : List V) :
    cellsVL (xs ++ ys) = cellsVL xs ++ cellsVL ys := by
  induction xs with
  | nil => rfl
  | cons x xs ih => simp [cellsVL, ih]

theorem cellsVL_nil_of {l : List V} (h : ∀ x ∈ l, cellsV x = []) :
    cellsVL l = [] := by
  induction l with
  | nil => rfl
  | cons x xs ih =>
    simp only [cellsVL]
    rw [h x (by simp), ih fun y hy => h y (by simp [hy])]
    rfl

theorem cellsV_zeroV (env : GEnv) : ∀ zf ty, cellsV (zeroV env zf ty) = [] := by
  intro zf
  induction zf with
  | zero => intro ty; rfl
  | succ n ih =>
    intro ty
    simp only [zeroV]
    cases hu : underlying ty with
    | prim s => cases s <;> rfl
    | slice t => rfl
    | array k t =>
      simp only [cellsV]
      exact cellsVL_nil_of fun x hx => by
        rw [List.eq_of_mem_replicate hx]; exact ih t
    | tmap k v => rfl
    | ptr t => rfl
    | tstruct nm =>
      simp only [cellsV]
      exact cellsVL_nil_of fun x hx => by
        obtain ⟨f, _, hf⟩ := List.mem_map.mp hx
        rw [← hf]; exact ih f.fty
    | func s => rfl
    | iface => rfl
    | niface n => rfl
    | chan t => rfl
    | named a b => rfl

theorem cellsV_retype (v : V) (t : Ty) : cellsV (retype v t) = cellsV v := by
  cases v with
  | vslice ty r =>
    cases r with
    | none => rfl
    | some x => obtain ⟨c, l, cp⟩ := x; rfl
  | vptr ty r =>
    cases r with
    | none => rfl
    | some x => obtain ⟨c, p⟩ := x; rfl
  | vmap ty r => cases r <;> rfl
  | vchan ty r => cases r <;> rfl
  | _ => rfl

theorem cellsV_viface (i : V) : cellsV (.viface i) = cellsV i := by
  simp [cellsV]

theorem cellsV_vptr_congr (t ty : Ty) (r : Option Addr) :
    cellsV (V.vptr t r) = cellsV (V.vptr ty r) := by
  cases r with
  | none => rfl
  | some a => obtain ⟨c, p⟩ := a; rfl

theorem cellsV_convertV {env : GEnv} {v : V} {t : Ty} {u : V}
    (h : convertV env v t = some u) :
    cellsV u = cellsV v ∨ cellsV u = [] := by
  unfold convertV at h
  repeat' split at h
  all_goals
    first
      | (injection h with h; subst h;
         first
           | (left; rfl)
           | (left; exact cellsV_viface _)
           | (left; exact cellsV_retype _ _)
           | (right; simp [cellsV]))
      | injection h
      | simp at h
      | skip
  all_goals
    rename_i hval
    subst hval
    left
    exact cellsV_vptr_congr _ _ _

theorem cellsV_assignTo {env : GEnv} {t : Ty} {v u : V}
    (h : assignTo env t v = some u) :
    cellsV u = cellsV v := by
  unfold assignTo at h
  repeat' split at h
  all_goals
    first
      | (injection h with h; subst h;
         first
           | rfl
           | exact cellsV_viface _)
      | injection h
      | simp at h

theorem cellsVL_get {fs : List V} {i : Nat} {x : V} (h : fs.get? i = some x) :
    ∀ c ∈ cellsV x, c ∈ cellsVL fs := by
  induction fs generalizing i with
  | nil => simp at h
  | cons y ys ih =>
    cases i with
    | zero =>
      simp only [List.get?_cons_zero, Option.some.injEq] at h
      subst h
      intro c hc
      simp [cellsVL, hc]
    | succ j =>
      simp only [List.get?_cons_succ] at h
      intro c hc
      simp only [cellsVL, List.mem_append]
      exact Or.inr (ih h c hc)

theorem cellsVL_set {fs : List V} {i : Nat} {x' : V} :
    ∀ c ∈ cellsVL (fs.set i x'), c ∈ cellsVL fs ∨ c ∈ cellsV x' := by
  induction fs generalizing i with
  | nil => simp [cellsVL]
  | cons y ys ih =>
    cases i with
    | zero =>
      intro c hc
      simp only [List.set, cellsVL, List.mem_append] at hc
      rcases hc with hc | hc
      · exact Or.inr hc
      · exact Or.inl (by simp [cellsVL, List.mem_append]; exact Or.inr hc)
    | succ j =>
      intro c hc
      simp only [List.set, cellsVL, List.mem_append] at hc
      rcases hc with hc | hc
      · exact Or.inl (by simp [cellsVL, List.mem_append]; exact Or.inl hc)
      · rcases ih c hc with h | h
        · exact Or.inl (by simp [cellsVL, List.mem_append]; exact Or.inr h)
        · exact Or.inr h

theorem cellsV_readV :
    ∀ (p : List Nat) (v u : V), readV v p = some u → ∀ c ∈ cellsV u, c ∈ cellsV v := by
  intro p
  induction p with
  | nil =>
    intro v u h
    simp only [readV, Option.some.injEq] at h
    subst h; exact fun c hc => hc
  | cons i p ih =>
    intro v u h
    cases v with
    | vstruct ty fs =>
      simp only [readV, Option.bind_eq_some] at h
      obtain ⟨x, hg, hr⟩ := h
      intro c hc
      simp only [cellsV]
      exact cellsVL_get hg c (ih x u hr c hc)
    | varray ty es =>
      simp only [readV, Option.bind_eq_some] at h
      obtain ⟨x, hg, hr⟩ := h
      intro c hc
      simp only [cellsV]
      exact cellsVL_get hg c (ih x u hr c hc)
    | _ => simp [readV] at h

theorem cellsV_writeV :
    ∀ (p : List Nat) (v u v' : V), writeV v p u = some v' →
      ∀ c ∈ cellsV v', c ∈ cellsV v ∨ c ∈ cellsV u := by
  intro p
  induction p with
  | nil =>
    intro v u v' h
    simp only [writeV, Option.some.injEq] at h
    subst h; exact fun c hc => Or.inr hc
  | cons i p ih =>
    intro v u v' h
    cases v with
    | vstruct ty fs =>
      simp only [writeV, Option.bind_eq_some, Option.map_eq_some'] at h
      obtain ⟨x, hg, x', hw, hv'⟩ := h
      subst hv'
      intro c hc
      simp only [cellsV] at hc
      rcases cellsVL_set c hc with h1 | h1
      · exact Or.inl (by simpa [cellsV] using h1)
      · rcases ih x u x' hw c h1 with h2 | h2
        · exact Or.inl (by simpa [cellsV] using cellsVL_get hg c h2)
        · exact Or.inr h2
    | varray ty es =>
      simp only [writeV, Option.bind_eq_some, Option.map_eq_some'] at h
      obtain ⟨x, hg, x', hw, hv'⟩ := h
      subst hv'
      intro c hc
      simp only [cellsV] at hc
      rcases cellsVL_set c hc with h1 | h1
      · exact Or.inl (by simpa [cellsV] using h1)
      · rcases ih x u x' hw c h1 with h2 | h2
        · exact Or.inl (by simpa [cellsV] using cellsVL_get hg c h2)
        · exact Or.inr h2
    | _ => simp [writeV] at h

theorem cellsC_writeCell {cell : Cell} {p : List Nat} {u : V} {cell' : Cell}
    (h : writeCell cell p u = some cell') :
    ∀ c ∈ cellsC cell', c ∈ cellsC cell ∨ c ∈ cellsV u := by
  cases cell with
  | carr ety es =>
    cases p with
    | nil => simp [writeCell] at h
    | cons i p =>
      simp only [writeCell, Option.bind_eq_some, Option.map_eq_some'] at h
      obtain ⟨x, hg, x', hw, hc'⟩ := h
      subst hc'
      intro c hc
      simp only [cellsC] at hc ⊢
      rcases cellsVL_set c hc with h1 | h1
      · exact Or.inl h1
      · rcases cellsV_writeV p x u x' hw c h1 with h2 | h2
        · exact Or.inl (cellsVL_get hg c h2)
        · exact Or.inr h2
  | cmap kt vt es => simp [writeCell] at h
  | cval ty v =>
    simp only [writeCell, Option.map_eq_some'] at h
    obtain ⟨v', hw, hc'⟩ := h
    subst hc'
    intro c hc
    simp only [cellsC] at hc ⊢
    exact cellsV_writeV p v u v' hw c hc

theorem cellsV_readCell {cell : Cell} {p : List Nat} {u : V}
    (h : readCell cell p = some u) : ∀ c ∈ cellsV u, c ∈ cellsC cell := by
  cases cell with
  | carr ety es =>
    cases p with
    | nil => simp [readCell] at h
    | cons i p =>
      simp only [readCell, Option.bind_eq_some] at h
      obtain ⟨x, hg, hr⟩ := h
      intro c hc
      simp only [cellsC]
      exact cellsVL_get hg c (cellsV_readV p x u hr c hc)
  | cmap kt vt es => simp [readCell] at h
  | cval ty v =>
    simp only [readCell] at h
    intro c hc
    simp only [cellsC]
    exact cellsV_readV p v u h c hc

theorem cellsE_setEntry {bf : Nat} {k u : V} :
    ∀ (es : List (V × V)), ∀ c ∈ cellsE (setEntry bf es k u),
      c ∈ cellsE es ∨ c ∈ cellsV k ∨ c ∈ cellsV u := by
  intro es
  induction es with
  | nil =>
    intro c hc
    simp only [setEntry, cellsE, List.mem_append, List.not_mem_nil, or_false] at hc
    exact Or.inr hc
  | cons e rest ih =>
    obtain ⟨k0, v0⟩ := e
    intro c hc
    simp only [setEntry] at hc
    by_cases hb : beqVF bf k0 k
    · rw [if_pos hb] at hc
      simp only [cellsE, List.mem_append] at hc ⊢
      tauto
    · rw [if_neg hb] at hc
      simp only [cellsE, List.mem_append] at hc ⊢
      rcases hc with (hc | hc) | hc
      · tauto
      · tauto
      · rcases ih c hc with h1 | h1 <;> tauto

/-! ### State-level lemmas -/

theorem writeAddr_spec {st : St} {a : Addr} {u : V} {st' : St}
    (h : writeAddr st a u = some st') :
    st'.next = st.next ∧ st'.ptrs = st.ptrs ∧
    (∀ m, m ≠ a.1 → hlookup st'.heap m = hlookup st.heap m) ∧
    (∃ cell cell', hlookup st.heap a.1 = some cell ∧
      hlookup st'.heap a.1 = some cell' ∧
      writeCell cell a.2 u = some cell' ∧
      ∀ c ∈ cellsC cell', c ∈ cellsC cell ∨ c ∈ cellsV u) := by
  unfold writeAddr at h
  rw [Option.bind_eq_some] at h
  obtain ⟨cell, hl, h⟩ := h
  rw [Option.map_eq_some'] at h
  obtain ⟨cell', hw, h⟩ := h
  subst h
  refine ⟨rfl, rfl, ?_, cell, cell', hl, ?_, hw, ?_⟩
  · intro m hm
    exact hlookup_hupdate_ne hm
  · show hlookup (hupdate st.heap a.1 cell') a.1 = some cell'
    rw [hlookup_hupdate_self, hl]; rfl
  · exact cellsC_writeCell hw

theorem fresh_writeAddr {B : Nat} {st : St} {a : Addr} {u : V} {st' : St}
    (hF : Fresh B st) (ha : B ≤ a.1)
    (hu : ∀ c ∈ cellsV u, B ≤ c ∧ c < st.next)
    (h : writeAddr st a u = some st') :
    Fresh B st' ∧ st'.next = st.next ∧ st'.ptrs = st.ptrs ∧
    (∀ m, m ≠ a.1 → hlookup st'.heap m = hlookup st.heap m) := by
  obtain ⟨hnext, hptrs, hne, cell, cell', hl, hl', _, hcells⟩ := writeAddr_spec h
  obtain ⟨hF1, hF2, hF3, hF4⟩ := hF
  refine ⟨⟨by omega, ?_, ?_, ?_⟩, hnext, hptrs, hne⟩
  · intro c cc hcc
    rw [hnext]
    by_cases hca : c = a.1
    · subst hca; exact hF2 _ _ hl
    · exact hF2 _ _ ((hne c hca) ▸ hcc)
  · intro k w hkw c hc
    rw [hnext]
    exact hF3 k w (hptrs ▸ hkw) c hc
  · intro c cc hcc hBc c' hc'
    rw [hnext]
    by_cases hca : c = a.1
    · subst hca
      rw [hl'] at hcc
      injection hcc with hcc
      subst hcc
      rcases hcells c' hc' with h1 | h1
      · exact hF4 _ _ hl hBc c' h1
      · exact hu c' h1
    · exact hF4 _ _ ((hne c hca) ▸ hcc) hBc c' hc'

theorem hlookup_alloc_lt {st : St} {cell : Cell} {m : Nat} (hm : m < st.next) :
    hlookup (alloc st cell).heap m = hlookup st.heap m := by
  simp only [alloc, hlookup]
  rw [if_neg]; omega

theorem hlookup_alloc_self {st : St} {cell : Cell} :
    hlookup (alloc st cell).heap st.next = some cell := by
  simp [alloc, hlookup]

theorem fresh_alloc {B : Nat} {st : St} {cell : Cell} (hF : Fresh B st)
    (hc : ∀ c ∈ cellsC cell, B ≤ c ∧ c < st.next) :
    Fresh B (alloc st cell) := by
  obtain ⟨hF1, hF2, hF3, hF4⟩ := hF
  refine ⟨?_, ?_, ?_, ?_⟩
  · show B ≤ st.next + 1; omega
  · intro c cc hcc
    show c < st.next + 1
    by_cases hcn : c = st.next
    · omega
    · simp only [alloc, hlookup] at hcc
      rw [if_neg (fun hh => hcn hh.symm)] at hcc
      have := hF2 _ _ hcc; omega
  · intro k w hkw c hcw
    have := hF3 k w hkw c hcw
    show B ≤ c ∧ c < st.next + 1
    omega
  · intro c cc hcc hBc c' hc'
    show B ≤ c' ∧ c' < st.next + 1
    by_cases hcn : c = st.next
    · subst hcn
      rw [hlookup_alloc_self] at hcc
      injection hcc with hcc
      subst hcc
      have := hc c' hc'; omega
    · simp only [alloc, hlookup] at hcc
      rw [if_neg (fun hh => hcn hh.symm)] at hcc
      have := hF4 _ _ hcc hBc c' hc'; omega

theorem tblLookup_insert {tbl : List ((Ty × Addr) × V)} {key k : Ty × Addr} {w : V} :
    tblLookup (tblInsert tbl key w) k =
      if key = k then some w else tblLookup tbl k := by
  rfl

theorem fresh_tblInsert {B : Nat} {st : St} {key : Ty × Addr} {w : V}
    (hF : Fresh B st) (hw : ∀ c ∈ cellsV w, B ≤ c ∧ c < st.next) :
    Fresh B { st with ptrs := tblInsert st.ptrs key w } := by
  obtain ⟨hF1, hF2, hF3, hF4⟩ := hF
  refine ⟨hF1, hF2, ?_, hF4⟩
  intro k w' hkw c hcw
  rw [show ({ st with ptrs := tblInsert st.ptrs key w } : St).ptrs
        = tblInsert st.ptrs key w from rfl] at hkw
  rw [tblLookup_insert] at hkw
  by_cases hkk : key = k
  · rw [if_pos hkk] at hkw
    injection hkw with hkw
    subst hkw
    exact hw c hcw
  · rw [if_neg hkk] at hkw
    exact hF3 k w' hkw c hcw

/-! ### Monotonicity / freshness of the clone recursion -/

theorem mono_stable {B : Nat} {st : St} {w : V} (hF : Fresh B st)
    (hw : cellsV w = []) : Mono B st st w :=
  ⟨Nat.le_refl _, fun _ _ => rfl, hF, by rw [hw]; intro c hc; simp at hc⟩

theorem writeCell_carr_len {ety0 : Ty} {es : List V} {p : List Nat} {u : V}
    {cell' : Cell} (h : writeCell (.carr ety0 es) p u = some cell') :
    ∃ es', cell' = .carr ety0 es' ∧ es'.length = es.length := by
  cases p with
  | nil => simp [writeCell] at h
  | cons i p =>
    simp only [writeCell, Option.bind_eq_some, Option.map_eq_some'] at h
    obtain ⟨x, hg, x', hw, hc'⟩ := h
    exact ⟨es.set i x', hc'.symm, by simp⟩

theorem fresh_mapSetEntry {B zf : Nat} {st : St} {dst : Nat} {k u : V} {st' : St}
    (hF : Fresh B st) (hd : B ≤ dst)
    (hk : ∀ c ∈ cellsV k, B ≤ c ∧ c < st.next)
    (hu : ∀ c ∈ cellsV u, B ≤ c ∧ c < st.next)
    (h : mapSetEntry zf st dst k u = some st') :
    Fresh B st' ∧ st'.next = st.next ∧ st'.ptrs = st.ptrs ∧
    (∀ m, m ≠ dst → hlookup st'.heap m = hlookup st.heap m) := by
  unfold mapSetEntry at h
  split at h
  case h_1 kt vt entries heq =>
    injection h with h
    subst h
    obtain ⟨hF1, hF2, hF3, hF4⟩ := hF
    refine ⟨⟨hF1, ?_, hF3, ?_⟩, rfl, rfl, fun m hm => hlookup_hupdate_ne hm⟩
    · intro c cc hcc
      by_cases hcd : c = dst
      · subst hcd; exact hF2 _ _ heq
      · exact hF2 _ _ ((hlookup_hupdate_ne hcd) ▸ hcc)
    · intro c cc hcc hBc c' hc'
      by_cases hcd : c = dst
      · subst hcd
        rw [show (({ st with heap := hupdate st.heap c (.cmap kt vt (setEntry zf entries k u)) } : St).heap)
              = hupdate st.heap c (.cmap kt vt (setEntry zf entries k u)) from rfl,
            hlookup_hupdate_self, heq] at hcc
        injection hcc with hcc
        subst hcc
        simp only [cellsC] at hc'
        rcases cellsE_setEntry entries c' hc' with h1 | h1 | h1
        · exact hF4 _ _ heq hBc c' (by simpa [cellsC] using h1)
        · exact hk c' h1
        · exact hu c' h1
      · exact hF4 _ _ ((hlookup_hupdate_ne hcd) ▸ hcc) hBc c' hc'
  case h_2 => exact absurd h (by simp)

theorem sliceLoop_mono {B : Nat} {env : GEnv}
    {rec : St → V → Option Addr → Option (St × V)}
    (hrec : RecOK B rec) {src dst : Nat} {ety : Ty} :
    ∀ (l : List Nat) (st st' : St), Fresh B st → B ≤ dst → dst < st.next →
      sliceLoop env rec src dst ety st l = some st' →
      st.next ≤ st'.next ∧ Fresh B st' ∧
      (∀ c, c < st.next → c ≠ dst → hlookup st'.heap c = hlookup st.heap c) ∧
      (∀ ety0 es, hlookup st.heap dst = some (.carr ety0 es) →
        ∃ es', hlookup st'.heap dst = some (.carr ety0 es') ∧
          es'.length = es.length) := by
  intro l
  induction l with
  | nil =>
    intro st st' hF hBd hdn h
    simp only [sliceLoop, Option.some.injEq] at h
    subst h
    exact ⟨Nat.le_refl _, hF, fun _ _ _ => rfl, fun ety0 es hl => ⟨es, hl, rfl⟩⟩
  | cons i rest ih =>
    intro st st' hF hBd hdn h
    simp only [sliceLoop, Option.bind_eq_some] at h
    obtain ⟨ev, hev, p, hp, h⟩ := h
    obtain ⟨h1n, h1p, h1F, h1w⟩ := hrec st ev (some (src, [i])) p.1 p.2 hF hp
    by_cases hv : isValidV p.2
    · rw [if_pos hv] at h
      rw [Option.bind_eq_some] at h
      obtain ⟨cv, hcv, h⟩ := h
      rw [Option.bind_eq_some] at h
      obtain ⟨st2, hw2, h⟩ := h
      have hcvc : ∀ c ∈ cellsV cv, B ≤ c ∧ c < p.1.next := by
        rcases cellsV_convertV hcv with he | he
        · rw [he]; exact h1w
        · rw [he]; intro c hc; simp at hc
      obtain ⟨h2F, h2n, h2p, h2ne⟩ :=
        fresh_writeAddr h1F (show B ≤ dst from hBd) hcvc hw2
      have hdn2 : dst < st2.next := by
        have : dst < p.1.next := by omega
        omega
      obtain ⟨h3n, h3F, h3ne, h3len⟩ := ih st2 st' h2F hBd hdn2 h
      refine ⟨by omega, h3F, ?_, ?_⟩
      · intro c hc hcd
        rw [h3ne c (by omega) hcd, h2ne c hcd, h1p c hc]
      · intro ety0 es hl
        have hl1 : hlookup p.1.heap dst = some (.carr ety0 es) := by
          rw [h1p dst hdn]; exact hl
        obtain ⟨_, _, _, cell, cell', hlc, hlc', hwc, _⟩ := writeAddr_spec hw2
        rw [hl1] at hlc
        injection hlc with hlc
        subst hlc
        obtain ⟨es1, hcell', hlen1⟩ := writeCell_carr_len hwc
        subst hcell'
        obtain ⟨es2, hl2, hlen2⟩ := h3len ety0 es1 hlc'
        exact ⟨es2, hl2, by omega⟩
    · rw [if_neg hv] at h
      obtain ⟨h3n, h3F, h3ne, h3len⟩ := ih p.1 st' h1F hBd (by omega) h
      refine ⟨by omega, h3F, ?_, ?_⟩
      · intro c hc hcd
        rw [h3ne c (by omega) hcd, h1p c hc]
      · intro ety0 es hl
        exact h3len ety0 es (by rw [h1p dst hdn]; exact hl)

theorem structLoop_mono {B : Nat} {env : GEnv}
    {rec : St → V → Option Addr → Option (St × V)}
    (hrec : RecOK B rec) {c0 : Nat} {addr : Option Addr} :
    ∀ (l : List (Nat × Field × V)) (st st' : St), Fresh B st → B ≤ c0 →
      c0 < st.next →
      structLoop env rec c0 addr st l = some st' →
      st.next ≤ st'.next ∧ Fresh B st' ∧
      (∀ c, c < st.next → c ≠ c0 → hlookup st'.heap c = hlookup st.heap c) := by
  intro l
  induction l with
  | nil =>
    intro st st' hF hBd hdn h
    simp only [structLoop, Option.some.injEq] at h
    subst h
    exact ⟨Nat.le_refl _, hF, fun _ _ _ => rfl⟩
  | cons trip rest ih =>
    intro st st' hF hBd hdn h
    simp only [structLoop] at h
    by_cases hex : trip.2.1.exported
    · rw [if_pos hex] at h
      rw [Option.bind_eq_some] at h
      obtain ⟨p, hp, h⟩ := h
      obtain ⟨h1n, h1p, h1F, h1w⟩ :=
        hrec st trip.2.2 (addr.map fun a => (a.1, a.2 ++ [trip.1])) p.1 p.2 hF hp
      by_cases hv : isValidV p.2
      · rw [if_pos hv] at h
        rw [Option.bind_eq_some] at h
        obtain ⟨cv, hcv, h⟩ := h
        rw [Option.bind_eq_some] at h
        obtain ⟨st2, hw2, h⟩ := h
        have hcvc : ∀ c ∈ cellsV cv, B ≤ c ∧ c < p.1.next := by
          rcases cellsV_convertV hcv with he | he
          · rw [he]; exact h1w
          · rw [he]; intro c hc; simp at hc
        obtain ⟨h2F, h2n, h2p, h2ne⟩ :=
          fresh_writeAddr h1F (show B ≤ c0 from hBd) hcvc hw2
        obtain ⟨h3n, h3F, h3ne⟩ := ih st2 st' h2F hBd (by omega) h
        refine ⟨by omega, h3F, ?_⟩
        intro c hc hcd
        rw [h3ne c (by omega) hcd, h2ne c hcd, h1p c hc]
      · rw [if_neg hv] at h
        obtain ⟨h3n, h3F, h3ne⟩ := ih p.1 st' h1F hBd (by omega) h
        refine ⟨by omega, h3F, ?_⟩
        intro c hc hcd
        rw [h3ne c (by omega) hcd, h1p c hc]
    · rw [if_neg hex] at h
      exact ih st st' hF hBd hdn h

theorem mapLoop_mono {B : Nat} {env : GEnv} {zf : Nat}
    {rec : St → V → Option Addr → Option (St × V)}
    (hrec : RecOK B rec) {kt vt : Ty} {dst : Nat} :
    ∀ (l : List (V × V)) (st st' : St), Fresh B st → B ≤ dst → dst < st.next →
      mapLoop env zf rec kt vt dst st l = some st' →
      st.next ≤ st'.next ∧ Fresh B st' ∧
      (∀ c, c < st.next → c ≠ dst → hlookup st'.heap c = hlookup st.heap c) := by
  intro l
  induction l with
  | nil =>
    intro st st' hF hBd hdn h
    simp only [mapLoop, Option.some.injEq] at h
    subst h
    exact ⟨Nat.le_refl _, hF, fun _ _ _ => rfl⟩
  | cons e rest ih =>
    intro st st' hF hBd hdn h
    simp only [mapLoop, Option.bind_eq_some] at h
    obtain ⟨pk, hpk, pv, hpv, ck', hck', cv', hcv', ck'', hck'', cv''', hcv''', st3, hset, h⟩ := h
    obtain ⟨h1n, h1p, h1F, h1w⟩ := hrec st e.1 none pk.1 pk.2 hF hpk
    obtain ⟨h2n, h2p, h2F, h2w⟩ := hrec pk.1 e.2 none pv.1 pv.2 h1F hpv
    have hck'c : ∀ c ∈ cellsV ck', B ≤ c ∧ c < pv.1.next := by
      intro c hc
      have hsub : c ∈ cellsV pk.2 ∨ False := by
        split at hck'
        · rcases cellsV_convertV hck' with he | he
          · rw [he] at hc; exact Or.inl hc
          · rw [he] at hc; simp at hc
        · injection hck' with hck'
          subst hck'
          exact Or.inl hc
      rcases hsub with hsub | hsub
      · have := h1w c hsub; omega
      · exact absurd hsub (by simp)
    have hcv'c : ∀ c ∈ cellsV cv', B ≤ c ∧ c < pv.1.next := by
      intro c hc
      split at hcv'
      · rcases cellsV_convertV hcv' with he | he
        · rw [he] at hc; exact h2w c hc
        · rw [he] at hc; simp at hc
      · injection hcv' with hcv'
        subst hcv'
        exact h2w c hc
    have hck''c : ∀ c ∈ cellsV ck'', B ≤ c ∧ c < pv.1.next := by
      intro c hc
      rw [cellsV_assignTo hck''] at hc
      exact hck'c c hc
    have hcv'''c : ∀ c ∈ cellsV cv''', B ≤ c ∧ c < pv.1.next := by
      intro c hc
      rw [cellsV_assignTo hcv'''] at hc
      by_cases hvv : isValidV cv'
      · rw [if_pos hvv] at hc; exact hcv'c c hc
      · rw [if_neg hvv] at hc
        rw [cellsV_zeroV env zf vt] at hc
        simp at hc
    obtain ⟨h3F, h3n, h3p, h3ne⟩ :=
      fresh_mapSetEntry h2F (show B ≤ dst from hBd) hck''c hcv'''c hset
    obtain ⟨h4n, h4F, h4ne⟩ := ih st3 st' h3F hBd (by omega) h
    refine ⟨by omega, h4F, ?_⟩
    intro c hc hcd
    rw [h4ne c (by omega) hcd, h3ne c hcd, h2p c (by omega), h1p c hc]

theorem mono_of_pair_eq {B : Nat} {st st' : St} {x w : V} (hF : Fresh B st)
    (hx : cellsV x = []) (h : (some (st, x) : Option (St × V)) = some (st', w)) :
    Mono B st st' w := by
  injection h with h
  have h1 : st = st' := congrArg Prod.fst h
  have h2 : x = w := congrArg Prod.snd h
  subst h1
  subst h2
  exact mono_stable hF hx

theorem registerStruct_next (st : St) (addr : Option Addr) (pty : Ty) (c : Nat) :
    (registerStruct st addr pty c).next = st.next := by
  cases addr <;> rfl

theorem registerStruct_heap (st : St) (addr : Option Addr) (pty : Ty) (c : Nat) :
    (registerStruct st addr pty c).heap = st.heap := by
  cases addr <;> rfl

theorem fresh_registerStruct {B : Nat} {st : St} {addr : Option Addr} {pty : Ty}
    {c : Nat} (hF : Fresh B st) (hc : B ≤ c ∧ c < st.next) :
    Fresh B (registerStruct st addr pty c) := by
  cases addr with
  | none => exact hF
  | some a =>
    refine fresh_tblInsert hF ?_
    intro c' hc'
    simp only [cellsV, List.mem_singleton] at hc'
    subst hc'
    exact hc

theorem sliceBody_mono {B : Nat} {env : GEnv} {zf : Nat}
    {rec : St → V → Option Addr → Option (St × V)} (hrec : RecOK B rec)
    {st : St} {v : V} {st' : St} {w : V} (hF : Fresh B st)
    (h : sliceBody env zf rec st v = some (st', w)) : Mono B st st' w := by
  cases v
  case vslice ty r =>
    cases r with
    | none => exact mono_of_pair_eq hF (by simp [cellsV]) h
    | some tri =>
      obtain ⟨c0, len, cap⟩ := tri
      simp only [sliceBody] at h
      split at h
      case h_1 ety heq =>
        rw [Option.bind_eq_some] at h
        obtain ⟨st2, hloop, h⟩ := h
        have hza : ∀ c ∈ cellsC (Cell.carr ety (List.replicate len (zeroV env zf ety))),
            B ≤ c ∧ c < st.next := by
          intro c hc
          simp only [cellsC] at hc
          rw [cellsVL_nil_of fun x hx => by
            rw [List.eq_of_mem_replicate hx]; exact cellsV_zeroV env zf ety] at hc
          simp at hc
        have hFa : Fresh B (alloc st (.carr ety (List.replicate len (zeroV env zf ety)))) :=
          fresh_alloc hF hza
        obtain ⟨h2n, h2F, h2ne, _⟩ :=
          sliceLoop_mono hrec (List.range len) _ st2 hFa hF.1
            (by simp [alloc]) hloop
        injection h with h
        have hst : st2 = st' := congrArg Prod.fst h
        have hw : V.vslice ty (some (st.next, len, len)) = w := congrArg Prod.snd h
        subst hst
        subst hw
        refine ⟨?_, ?_, h2F, ?_⟩
        · simp only [alloc] at h2n; omega
        · intro c hc
          rw [h2ne c (by simp [alloc]; omega) (by omega), hlookup_alloc_lt hc]
        · intro c hc
          simp only [cellsV, List.mem_singleton] at hc
          subst hc
          have : B ≤ st.next := hF.1
          simp only [alloc] at h2n
          omega
      case h_2 => exact Option.noConfusion h
  case vmap ty r =>
    cases r with
    | none => exact mono_of_pair_eq hF (by simp [cellsV]) h
    | some mc => exact Option.noConfusion h
  case vptr ty r =>
    cases r with
    | none => exact mono_of_pair_eq hF (by simp [cellsV]) h
    | some a => exact Option.noConfusion h
  case vchan ty r =>
    cases r with
    | none => exact mono_of_pair_eq hF (by simp [cellsV]) h
    | some c => exact Option.noConfusion h
  case vfunc ty f =>
    cases f with
    | none => exact mono_of_pair_eq hF (by simp [cellsV]) h
    | some fid => exact Option.noConfusion h
  case viface i =>
    cases i
    case invalid => exact mono_of_pair_eq hF (by simp [cellsV]) h
    all_goals exact Option.noConfusion h
  all_goals exact Option.noConfusion h

theorem mapBody_mono {B : Nat} {env : GEnv} {zf : Nat}
    {rec : St → V → Option Addr → Option (St × V)} (hrec : RecOK B rec)
    {st : St} {v : V} {st' : St} {w : V} (hF : Fresh B st)
    (h : mapBody env zf rec st v = some (st', w)) : Mono B st st' w := by
  cases v
  case vmap ty r =>
    cases r with
    | none => exact mono_of_pair_eq hF (by simp [cellsV]) h
    | some mc =>
      simp only [mapBody] at h
      split at h
      case h_1 kt vt heq =>
        split at h
        case h_1 kt0 vt0 entries heq2 =>
          rw [Option.bind_eq_some] at h
          obtain ⟨st2, hloop, h⟩ := h
          have hFa : Fresh B (alloc st (.cmap kt vt [])) :=
            fresh_alloc hF (by intro c hc; simp [cellsC, cellsE] at hc)
          obtain ⟨h2n, h2F, h2ne⟩ :=
            mapLoop_mono hrec entries _ st2 hFa hF.1 (by simp [alloc]) hloop
          injection h with h
          have hst : st2 = st' := congrArg Prod.fst h
          have hw : V.vmap ty (some st.next) = w := congrArg Prod.snd h
          subst hst
          subst hw
          refine ⟨?_, ?_, h2F, ?_⟩
          · simp only [alloc] at h2n; omega
          · intro c hc
            rw [h2ne c (by simp [alloc]; omega) (by omega), hlookup_alloc_lt hc]
          · intro c hc
            simp only [cellsV, List.mem_singleton] at hc
            subst hc
            have : B ≤ st.next := hF.1
            simp only [alloc] at h2n
            omega
        case h_2 => exact Option.noConfusion h
      case h_2 => exact Option.noConfusion h
  case vslice ty r =>
    cases r with
    | none => exact mono_of_pair_eq hF (by simp [cellsV]) h
    | some tri => exact Option.noConfusion h
  case vptr ty r =>
    cases r with
    | none => exact mono_of_pair_eq hF (by simp [cellsV]) h
    | some a => exact Option.noConfusion h
  case vchan ty r =>
    cases r with
    | none => exact mono_of_pair_eq hF (by simp [cellsV]) h
    | some c => exact Option.noConfusion h
  case vfunc ty f =>
    cases f with
    | none => exact mono_of_pair_eq hF (by simp [cellsV]) h
    | some fid => exact Option.noConfusion h
  case viface i =>
    cases i
    case invalid => exact mono_of_pair_eq hF (by simp [cellsV]) h
    all_goals exact Option.noConfusion h
  all_goals exact Option.noConfusion h

theorem ptrBody_mono {B : Nat} {rec : St → V → Option Addr → Option (St × V)}
    (hrec : RecOK B rec) {st : St} {v : V} {st' : St} {w : V} (hF : Fresh B st)
    (h : ptrBody rec st v = some (st', w)) : Mono B st st' w := by
  cases v
  case vptr ty r =>
    cases r with
    | none => exact mono_of_pair_eq hF (by simp [cellsV]) h
    | some a =>
      simp only [ptrBody] at h
      split at h
      case h_1 w0 heq =>
        injection h with h
        have hst : st = st' := congrArg Prod.fst h
        have hw : w0 = w := congrArg Prod.snd h
        subst hst
        subst hw
        exact ⟨Nat.le_refl _, fun _ _ => rfl, hF, hF.2.2.1 _ _ heq⟩
      case h_2 heq =>
        rw [Option.bind_eq_some] at h
        obtain ⟨ev, hev, h⟩ := h
        rw [Option.bind_eq_some] at h
        obtain ⟨p, hp, h⟩ := h
        obtain ⟨h1n, h1p, h1F, h1w⟩ := hrec st ev (some a) p.1 p.2 hF hp
        split at h
        case h_1 w0 heq2 =>
          injection h with h
          have hst : p.1 = st' := congrArg Prod.fst h
          have hw : w0 = w := congrArg Prod.snd h
          subst hst
          subst hw
          exact ⟨h1n, h1p, h1F, h1F.2.2.1 _ _ heq2⟩
        case h_2 heq2 =>
          rw [Option.bind_eq_some] at h
          obtain ⟨nty, hnty, h⟩ := h
          injection h with h
          have hst : alloc p.1 (.cval nty p.2) = st' := congrArg Prod.fst h
          have hw : V.vptr (.ptr nty) (some (p.1.next, [])) = w := congrArg Prod.snd h
          subst hst
          subst hw
          refine ⟨?_, ?_, fresh_alloc h1F (by intro c hc; exact h1w c hc), ?_⟩
          · simp only [alloc]; omega
          · intro c hc
            rw [hlookup_alloc_lt (by omega), h1p c hc]
          · intro c hc
            simp only [cellsV, List.mem_singleton] at hc
            subst hc
            have hB : B ≤ st.next := hF.1
            simp only [alloc]
            omega
  all_goals exact Option.noConfusion h

theorem structBody_mono {B : Nat} {env : GEnv} {zf : Nat}
    {rec : St → V → Option Addr → Option (St × V)} (hrec : RecOK B rec)
    {st : St} {v : V} {addr : Option Addr} {st' : St} {w : V} (hF : Fresh B st)
    (h : structBody env zf rec st v addr = some (st', w)) : Mono B st st' w := by
  cases v
  case vstruct ty fvs =>
    simp only [structBody] at h
    split at h
    case h_1 nm heq =>
      rw [Option.bind_eq_some] at h
      obtain ⟨st3, hloop, h⟩ := h
      rw [Option.bind_eq_some] at h
      obtain ⟨w0, hread, h⟩ := h
      have hFa : Fresh B (alloc st (.cval ty (zeroV env zf ty))) :=
        fresh_alloc hF (by
          intro c hc
          simp only [cellsC] at hc
          rw [cellsV_zeroV env zf ty] at hc
          simp at hc)
      have hFr : Fresh B (registerStruct (alloc st (.cval ty (zeroV env zf ty)))
          addr (Ty.ptr ty) st.next) :=
        fresh_registerStruct hFa (by constructor
                                     · exact hF.1
                                     · simp [alloc])
      obtain ⟨h2n, h2F, h2ne⟩ :=
        structLoop_mono hrec (fieldTriples (env.fields nm) fvs) _ st3 hFr hF.1
          (by rw [registerStruct_next]; simp [alloc]) hloop
      injection h with h
      have hst : st3 = st' := congrArg Prod.fst h
      have hw : w0 = w := congrArg Prod.snd h
      subst hst
      subst hw
      rw [registerStruct_next] at h2n
      simp only [alloc] at h2n
      refine ⟨by omega, ?_, h2F, ?_⟩
      · intro c hc
        rw [h2ne c (by rw [registerStruct_next]; simp [alloc]; omega) (by omega),
            registerStruct_heap, hlookup_alloc_lt hc]
      · unfold readAddr at hread
        rw [Option.bind_eq_some] at hread
        obtain ⟨cell, hlc, hrc⟩ := hread
        intro c hc
        exact h2F.2.2.2 st.next cell hlc hF.1 c (cellsV_readCell hrc c hc)
    case h_2 => exact Option.noConfusion h
  all_goals exact Option.noConfusion h

theorem cloneStep_mono {B : Nat} {env : GEnv} {zf : Nat}
    {rec : St → V → Option Addr → Option (St × V)} (hrec : RecOK B rec) :
    RecOK B (cloneStep env zf rec) := by
  intro st v a st' w hF h
  cases v
  case invalid => exact mono_of_pair_eq hF (by simp [cellsV]) h
  case vbool ty b => exact mono_of_pair_eq hF (by simp [cellsV]) h
  case vint ty n =>
    simp only [cloneStep] at h
    split at h
    case h_1 s heq =>
      cases hw : intWidth s <;> rw [hw] at h
      · exact Option.noConfusion h
      · exact mono_of_pair_eq hF (by simp [cellsV]) h
    case h_2 => exact Option.noConfusion h
  case vuint ty n =>
    simp only [cloneStep] at h
    split at h
    case h_1 s heq =>
      cases hw : uintWidth s <;> rw [hw] at h
      · exact Option.noConfusion h
      · exact mono_of_pair_eq hF (by simp [cellsV]) h
    case h_2 => exact Option.noConfusion h
  case vfloat ty bits =>
    simp only [cloneStep] at h
    split at h
    · exact mono_of_pair_eq hF (by simp [cellsV]) h
    · exact mono_of_pair_eq hF (by simp [cellsV]) h
    · exact Option.noConfusion h
  case vcomplex ty bits =>
    simp only [cloneStep] at h
    split at h
    · exact mono_of_pair_eq hF (by simp [cellsV]) h
    · exact mono_of_pair_eq hF (by simp [cellsV]) h
    · exact Option.noConfusion h
  case vstr ty s => exact mono_of_pair_eq hF (by simp [cellsV]) h
  case vslice ty r => exact sliceBody_mono hrec hF h
  case varray ty es =>
    have h' : sliceBody env zf rec st (.varray ty es) = some (st', w) := h
    exact sliceBody_mono hrec hF h'
  case vmap ty r => exact mapBody_mono hrec hF h
  case vptr ty r => exact ptrBody_mono hrec hF h
  case vstruct ty fs =>
    have h' : structBody env zf rec st (.vstruct ty fs) a = some (st', w) := h
    exact structBody_mono hrec hF h'
  case vfunc ty f => exact mono_of_pair_eq hF (by simp [cellsV]) h
  case viface i => exact hrec st i none st' w hF h
  case vchan ty r => exact mono_of_pair_eq hF (by simp [cellsV]) h

/-- Every successful run of the fuel-indexed `cloner.clone` never touches
existing allocations and produces a value referencing only freshly
allocated storage. -/
theorem cloneF_mono (env : GEnv) (B : Nat) :
    ∀ fuel, RecOK B (cloneF env fuel) := by
  intro fuel
  induction fuel with
  | zero => intro st v a st' w hF h; exact Option.noConfusion h
  | succ n ih => exact cloneStep_mono ih

/-! ### Bridge lemmas for the entry points -/

theorem assertT_some {T : Ty} {r w : V} (h : assertT T r = some w) : w = r := by
  unfold assertT at h
  repeat' split at h
  all_goals
    first
      | (injection h with h; exact h.symm)
      | injection h
      | simp at h

theorem assertT_self {T : Ty} {r : V} (h : vTy r = some T) :
    assertT T r = some r := by
  unfold assertT
  by_cases hI : underlying T = Ty.iface
  · rw [if_pos hI]
  · rw [if_neg hI, h]
    simp

theorem mapSetEntry_locality {bf : Nat} {st : St} {c : Nat} {k u : V} {st' : St}
    (h : mapSetEntry bf st c k u = some st') :
    st'.next = st.next ∧ (∀ m, m ≠ c → hlookup st'.heap m = hlookup st.heap m) := by
  unfold mapSetEntry at h
  split at h
  case h_1 =>
    injection h with h
    subst h
    exact ⟨rfl, fun m hm => hlookup_hupdate_ne hm⟩
  case h_2 => exact Option.noConfusion h

theorem wrapS_eq_of_range {w : Nat} {n : Int} (hw : 1 ≤ w)
    (h1 : -(2 ^ (w - 1)) ≤ n) (h2 : n < 2 ^ (w - 1)) : wrapS w n = n := by
  unfold wrapS
  have h2w : (2 : Int) ^ w = 2 ^ (w - 1) * 2 := by
    rw [← pow_succ]
    congr 1
    omega
  rw [h2w]
  have hM0 : (0 : Int) < 2 ^ (w - 1) := by positivity
  have h0 : 0 ≤ n + 2 ^ (w - 1) := by omega
  have h1' : n + 2 ^ (w - 1) < 2 ^ (w - 1) * 2 := by omega
  rw [Int.emod_eq_of_lt h0 h1']
  omega

theorem wrapU_eq_of_range {w n : Nat} (h : n < 2 ^ w) : wrapU w n = n :=
  Nat.mod_eq_of_lt h

/-- The state a fresh entry point starts from satisfies the invariant at
baseline `st.next`, given only that the pre-existing heap is allocated
below `next`. -/
theorem fresh_init {st : St}
    (hwf : ∀ c cell, hlookup st.heap c = some cell → c < st.next) :
    Fresh st.next { st with ptrs := [] } := by
  refine ⟨Nat.le_refl _, hwf, ?_, ?_⟩
  · intro k w hkw
    exact absurd hkw (by simp [tblLookup])
  · intro c cell hcc hBc c' hc'
    exact absurd (hwf c cell hcc) (by omega)

/-- Monotonicity and freshness transferred to the `DeepClone` entry point. -/
theorem goDeepClone_mono {env : GEnv} {fuel : Nat} {T : Ty} {st : St} {src : V}
    {st' : St} {w : V}
    (hwf : ∀ c cell, hlookup st.heap c = some cell → c < st.next)
    (h : goDeepClone env fuel T st src = some (st', w)) :
    st.next ≤ st'.next ∧
    (∀ c, c < st.next → hlookup st'.heap c = hlookup st.heap c) ∧
    Fresh st.next st' ∧
    (∀ c ∈ cellsV w, st.next ≤ c ∧ c < st'.next) := by
  unfold goDeepClone at h
  cases hr : cloneF env fuel { st with ptrs := [] } src none <;> rw [hr] at h
  · exact Option.noConfusion h
  · rename_i p
    obtain ⟨hn, hp, hF, hw⟩ :=
      cloneF_mono env st.next fuel { st with ptrs := [] } src none p.1 p.2
        (fresh_init hwf) hr
    simp only [finish] at h
    by_cases hv : isValidV p.2
    · rw [if_pos hv] at h
      rw [Option.map_eq_some'] at h
      obtain ⟨w0, ha, h⟩ := h
      have hw0 : w0 = p.2 := assertT_some ha
      subst hw0
      have h1 : p.1 = st' := congrArg Prod.fst h
      have h2 : p.2 = w := congrArg Prod.snd h
      subst h1
      subst h2
      exact ⟨hn, hp, hF, hw⟩
    · rw [if_neg hv] at h
      injection h with h
      have h1 : p.1 = st' := congrArg Prod.fst h
      have h2 : zeroV env fuel T = w := congrArg Prod.snd h
      subst h1
      subst h2
      refine ⟨hn, hp, hF, ?_⟩
      intro c hc
      rw [cellsV_zeroV env fuel T] at hc
      simp at hc

/-- Shape of a successful `cloner.cloneSlice` on a non-nil slice: the result
is a slice of the same declared type whose length and capacity both equal
the source length, and its backing array is a fresh allocation of that
length. -/
theorem cloneF_slice_shape {env : GEnv} {fuel B : Nat} {st : St} {ty ety : Ty}
    {c0 len cap : Nat} {st' : St} {w : V} (hF : Fresh B st)
    (hty : underlying ty = .slice ety)
    (h : cloneF env (fuel + 1) st (.vslice ty (some (c0, len, cap))) none
      = some (st', w)) :
    w = .vslice ty (some (st.next, len, len)) ∧
    ∃ es', hlookup st'.heap st.next = some (.carr ety es') ∧
      es'.length = len := by
  have h' : sliceBody env fuel (cloneF env fuel) st (.vslice ty (some (c0, len, cap)))
      = some (st', w) := h
  simp only [sliceBody] at h'
  split at h'
  case h_1 ety0 heq =>
    rw [hty] at heq
    injection heq with heq
    subst heq
    rw [Option.bind_eq_some] at h'
    obtain ⟨st2, hloop, h'⟩ := h'
    have hza : ∀ c ∈ cellsC (Cell.carr ety (List.replicate len (zeroV env fuel ety))),
        B ≤ c ∧ c < st.next := by
      intro c hc
      simp only [cellsC] at hc
      rw [cellsVL_nil_of fun x hx => by
        rw [List.eq_of_mem_replicate hx]; exact cellsV_zeroV env fuel ety] at hc
      simp at hc
    obtain ⟨_, _, _, hlen⟩ :=
      sliceLoop_mono (cloneF_mono env B fuel) (List.range len) _ st2
        (fresh_alloc hF hza) hF.1 (by simp [alloc]) hloop
    obtain ⟨es', hl', hlen'⟩ :=
      hlen ety (List.replicate len (zeroV env fuel ety)) hlookup_alloc_self
    injection h' with h'
    have h1 : st2 = st' := congrArg Prod.fst h'
    have h2 : V.vslice ty (some (st.next, len, len)) = w := congrArg Prod.snd h'
    subst h1
    subst h2
    refine ⟨rfl, es', hl', ?_⟩
    rw [hlen']
    exact List.length_replicate _ _
  case h_2 => exact Option.noConfusion h'

/-! ### The claims -/

/-- C1 (Identity independence): a successful `DeepClone` from a heap whose
allocations all live below `st.next` (i) never mutates any pre-existing
allocation, (ii) returns a value referencing only freshly allocated storage,
(iii) keeps the fresh region closed (fresh cells reference only fresh
cells), and (iv) any mutation of the clone's storage — a sequence element,
an aggregate field or the target of an indirection via `writeAddr`, or a map
entry via `mapSetEntry` — leaves every source allocation unchanged, and any
mutation of source storage leaves the clone's storage unchanged. -/
theorem scopier_identity_independence {env : GEnv} {fuel : Nat} {T : Ty}
    {st : St} {src : V} {st' : St} {w : V}
    (hwf : ∀ c cell, hlookup st.heap c = some cell → c < st.next)
    (h : goDeepClone env fuel T st src = some (st', w)) :
    (∀ c, c < st.next → hlookup st'.heap c = hlookup st.heap c) ∧
    (∀ c ∈ cellsV w, st.next ≤ c) ∧
    (∀ c cell, st.next ≤ c → hlookup st'.heap c = some cell →
      ∀ c' ∈ cellsC cell, st.next ≤ c') ∧
    (∀ a u st2, st.next ≤ a.1 → writeAddr st' a u = some st2 →
      ∀ c, c < st.next → hlookup st2.heap c = hlookup st.heap c) ∧
    (∀ bf c k u st2, st.next ≤ c → mapSetEntry bf st' c k u = some st2 →
      ∀ c', c' < st.next → hlookup st2.heap c' = hlookup st.heap c') ∧
    (∀ a u st2, a.1 < st.next → writeAddr st' a u = some st2 →
      ∀ c, st.next ≤ c → hlookup st2.heap c = hlookup st'.heap c) ∧
    (∀ bf c k u st2, c < st.next → mapSetEntry bf st' c k u = some st2 →
      ∀ c', st.next ≤ c' → hlookup st2.heap c' = hlookup st'.heap c') := by
  obtain ⟨hn, hp, hF, hw⟩ := goDeepClone_mono hwf h
  refine ⟨hp, fun c hc => (hw c hc).1, ?_, ?_, ?_, ?_, ?_⟩
  · intro c cell hc hcc c' hc'
    exact (hF.2.2.2 c cell hcc hc c' hc').1
  · intro a u st2 ha hwr c hc
    obtain ⟨_, _, hne, _⟩ := writeAddr_spec hwr
    rw [hne c (by omega), hp c hc]
  · intro bf c k u st2 hc hms c' hc'
    obtain ⟨_, hne⟩ := mapSetEntry_locality hms
    rw [hne c' (by omega), hp c' hc']
  · intro a u st2 ha hwr c hc
    obtain ⟨_, _, hne, _⟩ := writeAddr_spec hwr
    exact hne c (by omega)
  · intro bf c k u st2 hc hms c' hc'
    obtain ⟨_, hne⟩ := mapSetEntry_locality hms
    exact hne c' (by omega)

/-- C1 witness: the theorem applied to the concrete self-referential
`Record` clone: the returned pointer's cell 1 is fresh (at or above the
source heap's bound), and the source allocation at cell 0 is untouched. -/
theorem scopier_identity_independence_witness :
    stRec.next ≤ 1 ∧ hlookup c1Res.heap 0 = hlookup stRec.heap 0 :=
  have H := scopier_identity_independence
    (show ∀ c cell, hlookup stRec.heap c = some cell → c < stRec.next by
      intro c cell hc
      simp only [stRec, hlookup] at hc
      split at hc
      · rename_i h0; subst h0; decide
      · exact Option.noConfusion hc)
    (show goDeepClone envR 10 (.ptr recT) stRec recPtrVal
        = some (c1Res, V.vptr (.ptr recT) (some (1, []))) from rfl)
  ⟨H.2.1 1 (by simp [cellsV]), H.1 0 (by decide)⟩

/-- C2 counterexample: cloning a struct holding two `*int` fields that
alias the same cell produces two pointers to two distinct fresh cells (2
and 3), not references to a single new location, and the visited table
stays empty: `clonePtr` records nothing. -/
theorem scopier_sharing_counterexample :
    (goDeepClone envPI 10 pairIT stPI pairIVal).map (fun p => (p.2, p.1.ptrs))
      = some (V.vstruct pairIT
          [.vptr (.ptr tint) (some (2, [])), .vptr (.ptr tint) (some (3, []))], []) ∧
    (2 : Nat) ≠ 3 :=
  ⟨rfl, by decide⟩

/-- C2 amended: sharing preservation holds when the shared referent is an
aggregate: both `*Record` fields of the clone reference the single fresh
cell 2 (distinct from the original cell 0), and the visited table holds the
entry keyed by the pointer type and source address — recorded by the
aggregate-rebuild step, not by the indirection step. -/
theorem scopier_sharing_amended :
    (goDeepClone envPR 10 pairRT stPR pairRVal).map
        (fun p => (p.2, tblLookup p.1.ptrs (Ty.ptr recT, (0, [])), hlookup p.1.heap 2))
      = some (V.vstruct pairRT
            [.vptr (.ptr recT) (some (2, [])), .vptr (.ptr recT) (some (2, []))],
          some (V.vptr (.ptr recT) (some (2, []))),
          some (Cell.cval recT
            (.vstruct recT [.vstr tstr "x", .vptr (.ptr recT) none]))) ∧
    (0 : Nat) ≠ 2 :=
  ⟨rfl, by decide⟩

/-- C3 counterexample: `CloneSlice` applied to a Scalar panics (`none`, at
the `v.IsNil()` call) instead of returning the zero value of the result
type, although the same scalar deep-clones fine through `DeepClone`. -/
theorem scopier_shape_mismatch_counterexample :
    goCloneSlice env0 5 (Ty.slice tint) st0 (.vint tint 7) = none ∧
    goDeepClone env0 5 tint st0 (.vint tint 7) = some (st0, .vint tint 7) :=
  ⟨rfl, rfl⟩

/-- C3 amended: only `DeepClone` degrades an `Invalid` input to the zero
value of `T`; the shape-specific entry points do not degrade mismatched
shapes — `CloneSlice` on a Scalar, `CloneMap` on a non-nil slice, and
`CloneStruct` on a Scalar all panic, at any fuel. -/
theorem scopier_shape_mismatch_amended :
    (∀ env fuel T st, goDeepClone env (fuel + 1) T st .invalid
        = some ({ st with ptrs := [] }, zeroV env (fuel + 1) T)) ∧
    (∀ env fuel st n, goCloneSlice env fuel (Ty.slice tint) st (.vint tint n) = none) ∧
    (∀ env fuel st r, goCloneMap env fuel m32T st (.vslice intSlT (some r)) = none) ∧
    (∀ env fuel st n, goCloneStruct env fuel recT st (.vint tint n) = none) := by
  refine ⟨?_, ?_, ?_, ?_⟩ <;> intros <;> rfl

/-- C4 counterexample: `DeepClone` panics on a fixed-length array input
(the nil check in `cloneSlice` rejects the Array kind) and on a named
scalar type (the clone comes back at the unnamed primitive type and the
final type assertion fails) — shown not to be a fuel artifact: the clone
recursion itself completes on the named scalar. -/
theorem scopier_never_panics_counterexample :
    goDeepClone env0 10 arr2T st0 (.varray arr2T [.vint tint 1, .vint tint 2]) = none ∧
    goDeepClone env0 10 myIntT st0 (.vint myIntT 5) = none ∧
    cloneF env0 10 st0 (.vint myIntT 5) none = some (st0, .vint tint 5) :=
  ⟨rfl, rfl, rfl⟩

/-- C4 amended: `DeepClone` terminates normally on builtin-typed scalars
(returning the value unchanged), but panics on fixed-length arrays and on
named scalar types, at any fuel: the engine's degradation is not total. -/
theorem scopier_never_panics_amended :
    (∀ st n, -(2 ^ 63) ≤ n → n < 2 ^ 63 →
      goDeepClone env0 1 tint st (.vint tint n)
        = some ({ st with ptrs := [] }, .vint tint n)) ∧
    (∀ fuel st, goDeepClone env0 (fuel + 1) arr2T st
        (.varray arr2T [.vint tint 1, .vint tint 2]) = none) ∧
    (∀ fuel st, goDeepClone env0 (fuel + 1) myIntT st (.vint myIntT 5) = none) := by
  refine ⟨?_, ?_, ?_⟩
  · intro st n h1 h2
    have he : goDeepClone env0 1 tint st (.vint tint n)
        = some ({ st with ptrs := [] }, .vint tint (wrapS 64 n)) := rfl
    rw [he, wrapS_eq_of_range (by omega) h1 h2]
  · intro fuel st; rfl
  · intro fuel st; rfl

/-- C4 witness: the amended theorem applied at the in-range scalar 5. -/
theorem scopier_never_panics_amended_witness :
    goDeepClone env0 1 tint st0 (.vint tint 5) = some (st0, .vint tint 5) :=
  (scopier_never_panics_amended).1 st0 5 (by decide) (by decide)

/-- C5 (Cycle termination and topology): deep-cloning the self-referential
`Record {Name: "a", Next: &self}` through its indirection terminates, and
the clone's `Next` points to the clone itself (fresh cell 1) — not to the
original cell 0, and not nil; likewise a mutually-referential pair of
aggregates clones into a fresh pair with the same reference topology. -/
theorem scopier_cycle_termination :
    ((goDeepClone envR 10 (.ptr recT) stRec recPtrVal).map
        (fun p => (p.2, readAddr p.1 (1, [1]), readAddr p.1 (1, [0])))
      = some (V.vptr (.ptr recT) (some (1, [])),
              some (V.vptr (.ptr recT) (some (1, []))),
              some (V.vstr tstr "a"))) ∧
    (1 : Nat) ≠ 0 ∧
    ((goDeepClone envAB 10 (.ptr aT) stAB (.vptr (.ptr aT) (some (0, [])))).map
        (fun p => (p.2, readAddr p.1 (2, [0]), readAddr p.1 (3, [0])))
      = some (V.vptr (.ptr aT) (some (2, [])),
              some (V.vptr (.ptr bT) (some (3, []))),
              some (V.vptr (.ptr aT) (some (2, []))))) :=
  ⟨rfl, by decide, rfl⟩

/-- C6 (Scalar fidelity): cloning any in-range scalar of a builtin type —
bool, signed/unsigned integers of each width, floats, complex numbers,
strings — returns a value of the same primitive type (same width and
signedness, no silent widening) with the identical value, and changes no
state. -/
theorem scopier_scalar_fidelity :
    (∀ env st fuel n, -(2 ^ 63) ≤ n → n < 2 ^ 63 →
      cloneF env (fuel + 1) st (.vint (.prim .sint) n) none
        = some (st, .vint (.prim .sint) n)) ∧
    (∀ env st fuel n, -(2 ^ 7) ≤ n → n < 2 ^ 7 →
      cloneF env (fuel + 1) st (.vint (.prim .sint8) n) none
        = some (st, .vint (.prim .sint8) n)) ∧
    (∀ env st fuel n, -(2 ^ 15) ≤ n → n < 2 ^ 15 →
      cloneF env (fuel + 1) st (.vint (.prim .sint16) n) none
        = some (st, .vint (.prim .sint16) n)) ∧
    (∀ env st fuel n, -(2 ^ 31) ≤ n → n < 2 ^ 31 →
      cloneF env (fuel + 1) st (.vint (.prim .sint32) n) none
        = some (st, .vint (.prim .sint32) n)) ∧
    (∀ env st fuel n, -(2 ^ 63) ≤ n → n < 2 ^ 63 →
      cloneF env (fuel + 1) st (.vint (.prim .sint64) n) none
        = some (st, .vint (.prim .sint64) n)) ∧
    (∀ env st fuel n, n < 2 ^ 64 →
      cloneF env (fuel + 1) st (.vuint (.prim .suint) n) none
        = some (st, .vuint (.prim .suint) n)) ∧
    (∀ env st fuel n, n < 2 ^ 8 →
      cloneF env (fuel + 1) st (.vuint (.prim .suint8) n) none
        = some (st, .vuint (.prim .suint8) n)) ∧
    (∀ env st fuel n, n < 2 ^ 16 →
      cloneF env (fuel + 1) st (.vuint (.prim .suint16) n) none
        = some (st, .vuint (.prim .suint16) n)) ∧
    (∀ env st fuel n, n < 2 ^ 32 →
      cloneF env (fuel + 1) st (.vuint (.prim .suint32) n) none
        = some (st, .vuint (.prim .suint32) n)) ∧
    (∀ env st fuel n, n < 2 ^ 64 →
      cloneF env (fuel + 1) st (.vuint (.prim .suint64) n) none
        = some (st, .vuint (.prim .suint64) n)) ∧
    (∀ env st fuel b, cloneF env (fuel + 1) st (.vbool (.prim .sbool) b) none
        = some (st, .vbool (.prim .sbool) b)) ∧
    (∀ env st fuel s, cloneF env (fuel + 1) st (.vstr (.prim .sstring) s) none
        = some (st, .vstr (.prim .sstring) s)) ∧
    (∀ env st fuel bits, cloneF env (fuel + 1) st (.vfloat (.prim .sfloat32) bits) none
        = some (st, .vfloat (.prim .sfloat32) bits)) ∧
    (∀ env st fuel bits, cloneF env (fuel + 1) st (.vfloat (.prim .sfloat64) bits) none
        = some (st, .vfloat (.prim .sfloat64) bits)) ∧
    (∀ env st fuel bits, cloneF env (fuel + 1) st (.vcomplex (.prim .scomplex64) bits) none
        = some (st, .vcomplex (.prim .scomplex64) bits)) ∧
    (∀ env st fuel bits, cloneF env (fuel + 1) st (.vcomplex (.prim .scomplex128) bits) none
        = some (st, .vcomplex (.prim .scomplex128) bits)) := by
  refine ⟨?_, ?_, ?_, ?_, ?_, ?_, ?_, ?_, ?_, ?_, ?_, ?_, ?_, ?_, ?_, ?_⟩
  · intro env st fuel n h1 h2
    have he : cloneF env (fuel + 1) st (.vint (.prim .sint) n) none
        = some (st, .vint (.prim .sint) (wrapS 64 n)) := rfl
    rw [he, wrapS_eq_of_range (by omega) h1 h2]
  · intro env st fuel n h1 h2
    have he : cloneF env (fuel + 1) st (.vint (.prim .sint8) n) none
        = some (st, .vint (.prim .sint8) (wrapS 8 n)) := rfl
    rw [he, wrapS_eq_of_range (by omega) h1 h2]
  · intro env st fuel n h1 h2
    have he : cloneF env (fuel + 1) st (.vint (.prim .sint16) n) none
        = some (st, .vint (.prim .sint16) (wrapS 16 n)) := rfl
    rw [he, wrapS_eq_of_range (by omega) h1 h2]
  · intro env st fuel n h1 h2
    have he : cloneF env (fuel + 1) st (.vint (.prim .sint32) n) none
        = some (st, .vint (.prim .sint32) (wrapS 32 n)) := rfl
    rw [he, wrapS_eq_of_range (by omega) h1 h2]
  · intro env st fuel n h1 h2
    have he : cloneF env (fuel + 1) st (.vint (.prim .sint64) n) none
        = some (st, .vint (.prim .sint64) (wrapS 64 n)) := rfl
    rw [he, wrapS_eq_of_range (by omega) h1 h2]
  · intro env st fuel n h1
    have he : cloneF env (fuel + 1) st (.vuint (.prim .suint) n) none
        = some (st, .vuint (.prim .suint) (wrapU 64 n)) := rfl
    rw [he, wrapU_eq_of_range h1]
  · intro env st fuel n h1
    have he : cloneF env (fuel + 1) st (.vuint (.prim .suint8) n) none
        = some (st, .vuint (.prim .suint8) (wrapU 8 n)) := rfl
    rw [he, wrapU_eq_of_range h1]
  · intro env st fuel n h1
    have he : cloneF env (fuel + 1) st (.vuint (.prim .suint16) n) none
        = some (st, .vuint (.prim .suint16) (wrapU 16 n)) := rfl
    rw [he, wrapU_eq_of_range h1]
  · intro env st fuel n h1
    have he : cloneF env (fuel + 1) st (.vuint (.prim .suint32) n) none
        = some (st, .vuint (.prim .suint32) (wrapU 32 n)) := rfl
    rw [he, wrapU_eq_of_range h1]
  · intro env st fuel n h1
    have he : cloneF env (fuel + 1) st (.vuint (.prim .suint64) n) none
        = some (st, .vuint (.prim .suint64) (wrapU 64 n)) := rfl
    rw [he, wrapU_eq_of_range h1]
  · intro env st fuel b; rfl
  · intro env st fuel s; rfl
  · intro env st fuel bits; rfl
  · intro env st fuel bits; rfl
  · intro env st fuel bits; rfl
  · intro env st fuel bits; rfl

/-- C6 witness: scalar fidelity at the boundary values: `int8` minimum and
maximum, the `int64` minimum, `uint8` and `uint64` maxima, and zero. -/
theorem scopier_scalar_fidelity_witness :
    cloneF env0 1 st0 (.vint (.prim .sint8) (-128)) none
      = some (st0, .vint (.prim .sint8) (-128)) ∧
    cloneF env0 1 st0 (.vint (.prim .sint8) 127) none
      = some (st0, .vint (.prim .sint8) 127) ∧
    cloneF env0 1 st0 (.vint (.prim .sint64) (-(2 ^ 63))) none
      = some (st0, .vint (.prim .sint64) (-(2 ^ 63))) ∧
    cloneF env0 1 st0 (.vuint (.prim .suint8) 255) none
      = some (st0, .vuint (.prim .suint8) 255) ∧
    cloneF env0 1 st0 (.vuint (.prim .suint64) (2 ^ 64 - 1)) none
      = some (st0, .vuint (.prim .suint64) (2 ^ 64 - 1)) ∧
    cloneF env0 1 st0 (.vint (.prim .sint) 0) none
      = some (st0, .vint (.prim .sint) 0) :=
  ⟨scopier_scalar_fidelity.2.1 env0 st0 0 (-128) (by norm_num) (by norm_num),
   scopier_scalar_fidelity.2.1 env0 st0 0 127 (by norm_num) (by norm_num),
   scopier_scalar_fidelity.2.2.2.2.1 env0 st0 0 (-(2 ^ 63)) (by norm_num) (by norm_num),
   scopier_scalar_fidelity.2.2.2.2.2.2.1 env0 st0 0 255 (by norm_num),
   scopier_scalar_fidelity.2.2.2.2.2.2.2.2.2.1 env0 st0 0 (2 ^ 64 - 1) (by norm_num),
   scopier_scalar_fidelity.1 env0 st0 0 0 (by norm_num) (by norm_num)⟩

/-- C7 (Sequence rebuild, amended): cloning a non-nil slice allocates a
fresh backing array of exactly the source length (order and length
preserved), and — shown on `[]any{1, nil, 3}` — an element whose clone is
*invalid* leaves its own slot at the destination's zero value while later
elements are still cloned into their positions. The claim's further
"inconvertible" half is false: when an element's clone is valid but not
convertible to the element type, `val.Convert(item.Type())` panics instead
of leaving the slot at its default — shown on `[]error` holding values of a
named string type `myErr`, whose clones are plain strings that do not
implement `error` (third conjunct, at every sufficient fuel). Fixed-length
arrays — in-scope sequences — never reach the loop at all: the dispatch
sends them to `cloneSlice`, whose `v.IsNil()` panics on the Array kind
(fourth conjunct, at every fuel and state). -/
theorem scopier_sequence_rebuild :
    (∀ env fuel B st ty ety c0 len cap st' w,
      Fresh B st → underlying ty = .slice ety →
      cloneF env (fuel + 1) st (.vslice ty (some (c0, len, cap))) none
        = some (st', w) →
      w = .vslice ty (some (st.next, len, len)) ∧
      ∃ es', hlookup st'.heap st.next = some (.carr ety es') ∧
        es'.length = len) ∧
    ((goCloneSlice env0 10 anySlT stS (.vslice anySlT (some (0, 3, 3)))).map
        (fun p => (p.2, hlookup p.1.heap 1))
      = some (V.vslice anySlT (some (1, 3, 3)),
              some (Cell.carr .iface
                [.viface (.vint tint 1), .viface .invalid, .viface (.vint tint 3)]))) ∧
    (∀ fuel,
      goCloneSlice envE (fuel + 2) errSlT stE (.vslice errSlT (some (0, 2, 2)))
        = none) ∧
    (∀ fuel st,
      goDeepClone env0 (fuel + 1) arr2T st (.varray arr2T [.vint tint 1, .vint tint 2])
        = none) := by
  refine ⟨?_, rfl, ?_, ?_⟩
  · intro env fuel B st ty ety c0 len cap st' w hF hty h
    exact cloneF_slice_shape hF hty h
  · intro fuel; rfl
  · intro fuel st; rfl

/-- C7 witness: the general part applied to the concrete `[]any{1, nil, 3}`
clone. -/
theorem scopier_sequence_rebuild_witness :
    V.vslice anySlT (some (1, 3, 3)) = V.vslice anySlT (some (stS.next, 3, 3)) ∧
    ∃ es', hlookup c7Res.heap stS.next = some (.carr .iface es') ∧
      es'.length = 3 :=
  scopier_sequence_rebuild.1 env0 9 1 stS anySlT .iface 0 3 3 c7Res
    (V.vslice anySlT (some (1, 3, 3)))
    (by
      refine ⟨by decide, ?_, ?_, ?_⟩
      · intro c cell hc
        simp only [stS, hlookup] at hc
        split at hc
        · rename_i h0; subst h0; decide
        · exact Option.noConfusion hc
      · intro k w hkw
        exact absurd hkw (by simp [stS, tblLookup])
      · intro c cell hcc hBc c' hc'
        simp only [stS, hlookup] at hcc
        split at hcc
        · rename_i h0; subst h0; exact absurd hBc (by decide)
        · exact Option.noConfusion hcc)
    rfl rfl

/-- C7 counterexample: the claim's "inconvertible element clone leaves the
slot at the destination's default" is false.  Cloning `[]error{myErr("x"),
myErr("y")}` (with `type myErr string` implementing `error`) panics: the
first element's clone is the *valid* plain string `"x"` — the scalar is
rebuilt at its unnamed primitive type — but `string` does not implement
`error`, so `val.Convert(item.Type())` panics rather than skipping the
slot, and no later element is cloned.  The second and third conjuncts
isolate the two steps: the element clone succeeds and is valid, and its
conversion to the `error` interface type fails. -/
theorem scopier_sequence_rebuild_counterexample :
    goCloneSlice envE 10 errSlT stE (.vslice errSlT (some (0, 2, 2))) = none ∧
    cloneF envE 10 stE (.viface (.vstr myErrT "x")) none
      = some (stE, .vstr tstr "x") ∧
    convertV envE (.vstr tstr "x") errT = none :=
  ⟨rfl, rfl, rfl⟩

/-- C8 counterexample: the widening scenario is not realizable — cloning
the `int32`-valued map `{"a":1, "b":2}` through the map entry point with an
`int64`-valued result type panics at the generic type assertion (the entry
point's signature forces the destination type to equal the source type)
instead of producing a widened map. -/
theorem scopier_map_widening_counterexample :
    goCloneMap env0 10 m64T stM (.vmap m32T (some 0)) = none := rfl

/-- C8 amended: with the destination type equal to the source type (the
only possibility the generic signature admits), cloning `{"a":1, "b":2}`
yields a fresh map of the same `int32` value type with both entries present
and numerically equal — no widening occurs. -/
theorem scopier_map_widening_amended :
    (goCloneMap env0 10 m32T stM (.vmap m32T (some 0))).map
        (fun p => (p.2, hlookup p.1.heap 1))
      = some (V.vmap m32T (some 1),
              some (Cell.cmap tstr t32
                [(.vstr tstr "a", .vint t32 1), (.vstr tstr "b", .vint t32 2)])) ∧
    t32 ≠ t64 :=
  ⟨rfl, by decide⟩

/-- C9 (Slice capacity normalization): cloning a non-nil slice whose
capacity exceeds its length produces a slice whose length and capacity both
equal the source length, backed by a fresh array of exactly that length —
the source's spare capacity is not carried over. -/
theorem scopier_slice_capacity_normalization :
    ∀ env fuel B st ty ety c0 len cap st' w,
      Fresh B st → underlying ty = .slice ety → len < cap →
      cloneF env (fuel + 1) st (.vslice ty (some (c0, len, cap))) none
        = some (st', w) →
      w = .vslice ty (some (st.next, len, len)) ∧
      ∃ es', hlookup st'.heap st.next = some (.carr ety es') ∧
        es'.length = len := by
  intro env fuel B st ty ety c0 len cap st' w hF hty hcap h
  exact cloneF_slice_shape hF hty h

/-- C9 witness: the length-3, capacity-5 `[]int` clones to length 3 and
capacity 3. -/
theorem scopier_slice_capacity_normalization_witness :
    V.vslice intSlT (some (1, 3, 3)) = V.vslice intSlT (some (stC.next, 3, 3)) ∧
    ∃ es', hlookup c9Res.heap stC.next = some (.carr tint es') ∧
      es'.length = 3 :=
  scopier_slice_capacity_normalization env0 9 1 stC intSlT tint 0 3 5 c9Res
    (V.vslice intSlT (some (1, 3, 3)))
    (by
      refine ⟨by decide, ?_, ?_, ?_⟩
      · intro c cell hc
        simp only [stC, hlookup] at hc
        split at hc
        · rename_i h0; subst h0; decide
        · exact Option.noConfusion hc
      · intro k w hkw
        exact absurd hkw (by simp [stC, tblLookup])
      · intro c cell hcc hBc c' hc'
        simp only [stC, hlookup] at hcc
        split at hcc
        · rename_i h0; subst h0; exact absurd hBc (by decide)
        · exact Option.noConfusion hcc)
    rfl (by decide) rfl

/-- C10 (Nil collections stay nil): every clone entry point maps a nil
slice and a nil map to the typed nil value of the same type, allocating
nothing — the result state is the input state (with the per-call visited
table reset), not a freshly allocated empty collection. -/
theorem scopier_nil_collections :
    ∀ env fuel st ty,
      goCloneSlice env fuel ty st (.vslice ty none)
        = some ({ st with ptrs := [] }, .vslice ty none) ∧
      goCloneMap env fuel ty st (.vmap ty none)
        = some ({ st with ptrs := [] }, .vmap ty none) ∧
      goDeepClone env (fuel + 1) ty st (.vslice ty none)
        = some ({ st with ptrs := [] }, .vslice ty none) ∧
      goDeepClone env (fuel + 1) ty st (.vmap ty none)
        = some ({ st with ptrs := [] }, .vmap ty none) := by
  intro env fuel st ty
  have h1 : assertT ty (V.vslice ty none) = some (V.vslice ty none) :=
    assertT_self rfl
  have h2 : assertT ty (V.vmap ty none) = some (V.vmap ty none) :=
    assertT_self rfl
  refine ⟨?_, ?_, ?_, ?_⟩
  · have e1 : goCloneSlice env fuel ty st (.vslice ty none)
        = (assertT ty (V.vslice ty none)).map
            (fun w => (({ st with ptrs := [] } : St), w)) := rfl
    rw [e1, h1]; rfl
  · have e2 : goCloneMap env fuel ty st (.vmap ty none)
        = (assertT ty (V.vmap ty none)).map
            (fun w => (({ st with ptrs := [] } : St), w)) := rfl
    rw [e2, h2]; rfl
  · have e3 : goDeepClone env (fuel + 1) ty st (.vslice ty none)
        = (assertT ty (V.vslice ty none)).map
            (fun w => (({ st with ptrs := [] } : St), w)) := rfl
    rw [e3, h1]; rfl
  · have e4 : goDeepClone env (fuel + 1) ty st (.vmap ty none)
        = (assertT ty (V.vmap ty none)).map
            (fun w => (({ st with ptrs := [] } : St), w)) := rfl
    rw [e4, h2]; rfl

end Scopier
